import Mathlib

/-!
Verification model of the `WebCrawler` core in `crawler.py` of the Wt
repository.  Pure string processing (URL normalisation, scope filtering,
content search) is embedded directly; the network (HTTP responses, HTML link
extraction by BeautifulSoup/urljoin, robots.txt documents) is an explicit
environment parameter, and the crawl loop is fuel-indexed iteration of a
step function that mirrors the body of `WebCrawler.crawl`.
-/

namespace Wt

/-! ### ASCII character helpers (Python `str.lower`, scheme characters) -/

/-- ASCII uppercase test. -/
def asciiUpper (c : Char) : Bool := 'A' ≤ c && c ≤ 'Z'

/-- ASCII lowercase test. -/
def asciiLower (c : Char) : Bool := 'a' ≤ c && c ≤ 'z'

/-- ASCII letter test (CPython `url[0].isascii() and url[0].isalpha()`). -/
def asciiAlpha (c : Char) : Bool := asciiUpper c || asciiLower c

/-- ASCII digit test. -/
def asciiDigit (c : Char) : Bool := '0' ≤ c && c ≤ '9'

/-- Characters allowed in a URL scheme (CPython `scheme_chars`). -/
def schemeChar (c : Char) : Bool := asciiAlpha c || asciiDigit c || c = '+' || c = '-' || c = '.'

/-- ASCII lower-casing of one character, as Python `str.lower` acts on the
ASCII range (the only range exercised by this crawler). -/
def lowerChar (c : Char) : Char :=
  match c with
  | 'A' => 'a' | 'B' => 'b' | 'C' => 'c' | 'D' => 'd' | 'E' => 'e' | 'F' => 'f'
  | 'G' => 'g' | 'H' => 'h' | 'I' => 'i' | 'J' => 'j' | 'K' => 'k' | 'L' => 'l'
  | 'M' => 'm' | 'N' => 'n' | 'O' => 'o' | 'P' => 'p' | 'Q' => 'q' | 'R' => 'r'
  | 'S' => 's' | 'T' => 't' | 'U' => 'u' | 'V' => 'v' | 'W' => 'w' | 'X' => 'x'
  | 'Y' => 'y' | 'Z' => 'z'
  | c => c

/-- Python `str.lower` on a character list. -/
def lowerStr (l : List Char) : List Char := l.map lowerChar

/-- `isPref pre l` decides whether `pre` is a leading segment of `l`
(Python `str.startswith`). -/
def isPref : List Char → List Char → Bool
  | [], _ => true
  | _ :: _, [] => false
  | p :: ps, c :: cs => p = c && isPref ps cs

/-- Python `str.endswith`. -/
def isSuffixOf (suf l : List Char) : Bool := isPref suf.reverse l.reverse

/-- Split a list at the first occurrence of `t` (Python `str.split(t, 1)` /
`str.find`): `some (before, after)` with `l = before ++ t :: after` and
`t ∉ before`, or `none` when `t` does not occur. -/
def splitFirst (t : Char) : List Char → Option (List Char × List Char)
  | [] => none
  | c :: r =>
    if c = t then some ([], r)
    else
      match splitFirst t r with
      | some (a, b) => some (c :: a, b)
      | none => none

/-- Split a list at the last occurrence of `t` (Python `str.rfind`). -/
def splitLast (t : Char) : List Char → Option (List Char × List Char)
  | [] => none
  | c :: r =>
    match splitLast t r with
    | some (a, b) => some (c :: a, b)
    | none => if c = t then some ([], r) else none

/-! ### Model of `urllib.parse` as used by `crawler.py`

`urlparse` / `urlunparse` on character lists, following the CPython
algorithm (scheme split at the first colon with validity check, netloc after
`//` up to the first of `/?#`, fragment after the first `#`, query after the
first `?`, params after the first `;` following the last `/` of the path). -/

/-- Characters that continue the netloc scan (everything except `/`, `?`, `#`). -/
def netlocChar (c : Char) : Bool := !(c = '/' || c = '?' || c = '#')

/-- WHATWG C0-control-or-space (codepoints up to 0x20); CPython lstrips these
from the URL before parsing. -/
def c0Space (c : Char) : Bool := c.toNat ≤ 32

/-- Characters kept by CPython's removal of unsafe bytes (tab, CR, LF). -/
def keepChar (c : Char) : Bool := !(c = '\t' || c = '\r' || c = '\n')

/-- CPython `urlsplit` preprocessing: lstrip C0 controls and spaces, then
remove every tab, CR and LF. -/
def preClean (l : List Char) : List Char := (l.dropWhile c0Space).filter keepChar

/-- `"http://"` as a character list. -/
def httpPre : List Char := ['h', 't', 't', 'p', ':', '/', '/']

/-- `"https://"` as a character list. -/
def httpsPre : List Char := ['h', 't', 't', 'p', 's', ':', '/', '/']

/-- Result of `urlsplit`. -/
structure SplitUrl where
  scheme : List Char
  netloc : List Char
  path : List Char
  query : List Char
  fragment : List Char
deriving Repr, DecidableEq

/-- CPython scheme recognition: the text before the first `:` is a scheme when
it is non-empty, starts with an ASCII letter and consists of scheme
characters; the scheme is lower-cased. -/
def splitScheme (l : List Char) : List Char × List Char :=
  match splitFirst ':' l with
  | some (before, after) =>
    if !before.isEmpty && asciiAlpha (before.headD ' ') && before.all schemeChar
    then (lowerStr before, after)
    else ([], l)
  | none => ([], l)

/-- The fragment and query splits of `urlsplit` on the part after the
netloc: returns `(path, query, fragment)`, splitting at the first `#`
(fragment) and then at the first `?` (query), each only when present. -/
def tailSplit (rest : List Char) : List Char × List Char × List Char :=
  let fs :=
    match splitFirst '#' rest with
    | some (a, b) => (a, b)
    | none => (rest, [])
  let qs :=
    match splitFirst '?' fs.1 with
    | some (a, b) => (a, b)
    | none => (fs.1, [])
  (qs.1, qs.2, fs.2)

/-- CPython `urlsplit` after preprocessing (the splitting pipeline proper). -/
def urlsplitCore (l : List Char) : SplitUrl :=
  let s := splitScheme l
  let hasNl := isPref ['/', '/'] s.2
  let netloc := if hasNl then (s.2.drop 2).takeWhile netlocChar else []
  let rest1 := if hasNl then (s.2.drop 2).dropWhile netlocChar else s.2
  let t := tailSplit rest1
  ⟨s.1, netloc, t.1, t.2.1, t.2.2⟩

/-- CPython `urlsplit` on character lists (preprocessing plus splitting). -/
def urlsplitL (l : List Char) : SplitUrl := urlsplitCore (preClean l)

/-- Result of `urlparse` (urlsplit plus params). -/
structure UrlParts where
  scheme : List Char
  netloc : List Char
  path : List Char
  params : List Char
  query : List Char
  fragment : List Char
deriving Repr, DecidableEq

/-- CPython `_splitparams`: split the path at the first `;` occurring after
the last `/` (or the first `;` at all when the path has no `/`); when no such
`;` exists the path is returned whole with empty params. -/
def splitParams (p : List Char) : List Char × List Char :=
  match splitLast '/' p with
  | some (b, a) =>
    match splitFirst ';' a with
    | some (x, y) => (b ++ '/' :: x, y)
    | none => (p, [])
  | none =>
    match splitFirst ';' p with
    | some (x, y) => (x, y)
    | none => (p, [])

/-- CPython `urlparse` on character lists. -/
def urlparseL (l : List Char) : UrlParts :=
  let s := urlsplitL l
  let pp := if s.path.contains ';' then splitParams s.path else (s.path, [])
  ⟨s.scheme, s.netloc, pp.1, pp.2, s.query, s.fragment⟩

/-- CPython `uses_netloc`: schemes whose URLs carry a `//`-delimited
authority component. -/
def usesNetloc : List (List Char) :=
  [[], "ftp".data, "http".data, "gopher".data, "nntp".data, "telnet".data,
   "imap".data, "wais".data, "file".data, "mms".data, "https".data,
   "shttp".data, "snews".data, "prospero".data, "rtsp".data, "rtsps".data,
   "rtspu".data, "rsync".data, "svn".data, "svn+ssh".data, "sftp".data,
   "nfs".data, "git".data, "git+ssh".data, "ws".data, "wss".data]

/-- CPython `urlunsplit` on character lists: restore the `//` authority
marker when a netloc is present (or the scheme uses one and the path does not
already start with `//`), then re-attach scheme, query and fragment, each
only when non-empty. -/
def urlunsplitL (scheme netloc url query fragment : List Char) : List Char :=
  let url1 :=
    if !netloc.isEmpty || (!scheme.isEmpty && usesNetloc.contains scheme && !isPref ['/', '/'] url)
    then '/' :: '/' :: (netloc ++ (if !url.isEmpty && !isPref ['/'] url then '/' :: url else url))
    else url
  let url2 := if !scheme.isEmpty then scheme ++ ':' :: url1 else url1
  let url3 := if !query.isEmpty then url2 ++ '?' :: query else url2
  if !fragment.isEmpty then url3 ++ '#' :: fragment else url3

/-- CPython `urlunparse` on character lists. -/
def urlunparseL (u : UrlParts) : List Char :=
  urlunsplitL u.scheme u.netloc
    (if !u.params.isEmpty then u.path ++ ';' :: u.params else u.path)
    u.query u.fragment

/-! ### `WebCrawler._normalize_url` and `WebCrawler._is_valid_url` -/

/-- The scheme-defaulting step of `_normalize_url`: prepend `https://` unless
the string starts with `http://` or `https://`. -/
def withScheme (l : List Char) : List Char :=
  if isPref httpPre l || isPref httpsPre l then l else httpsPre ++ l

/-- `WebCrawler._normalize_url` (crawler.py lines 69-85) on character lists:
default the scheme, then re-assemble the parsed URL with the netloc
lower-cased and the fragment removed. -/
def normalizeL (l : List Char) : List Char :=
  let p := urlparseL (withScheme l)
  urlunparseL ⟨p.scheme, lowerStr p.netloc, p.path, p.params, p.query, []⟩

/-- `WebCrawler._normalize_url` on strings. -/
def normalizeUrl (s : String) : String := ⟨normalizeL s.data⟩

/-- The fixed extension exclusion list of `_is_valid_url`
(crawler.py lines 102-108). -/
def skipExtensions : List (List Char) :=
  [".pdf".data, ".doc".data, ".docx".data, ".xls".data, ".xlsx".data,
   ".ppt".data, ".pptx".data,
   ".zip".data, ".tar".data, ".gz".data, ".rar".data, ".exe".data, ".dmg".data,
   ".jpg".data, ".jpeg".data, ".png".data, ".gif".data, ".bmp".data, ".svg".data,
   ".mp3".data, ".mp4".data, ".avi".data, ".mov".data, ".wmv".data,
   ".css".data, ".js".data, ".xml".data, ".rss".data, ".json".data]

/-- `WebCrawler._is_valid_url` (crawler.py lines 87-118) on character lists:
scheme must be http/https, the netloc must be an allowed domain (exact
match), and the lower-cased path must not end with an excluded extension. -/
def isValidUrlL (allowed : List (List Char)) (url : List Char) : Bool :=
  let p := urlparseL url
  if !(p.scheme == "http".data || p.scheme == "https".data) then false
  else if !(allowed.contains p.netloc) then false
  else !(skipExtensions.any (fun e => isSuffixOf e (lowerStr p.path)))

/-! ### `WebCrawler._search_content` (Python `str.count`) -/

/-- Non-overlapping substring count for a non-empty needle, scanning left to
right and skipping the needle's length after each match (Python
`str.count`); the counter argument is the number of positions still to skip
after the previous match. -/
def countSubAux (n : List Char) : List Char → Nat → Nat
  | [], _ => 0
  | _ :: rest, Nat.succ k => countSubAux n rest k
  | c :: rest, 0 =>
    if isPref n (c :: rest) then 1 + countSubAux n rest (n.length - 1)
    else countSubAux n rest 0

/-- Python `str.count`: the empty needle occurs `length + 1` times. -/
def countSub (n hay : List Char) : Nat :=
  if n.isEmpty then hay.length + 1 else countSubAux n hay 0

/-- Insertion into an insertion-ordered association list, replacing the value
of an existing key in place (Python `dict` assignment). -/
def dictInsert (k : String) (v : Nat) : List (String × Nat) → List (String × Nat)
  | [] => [(k, v)]
  | (k', v') :: r => if k' = k then (k, v) :: r else (k', v') :: dictInsert k v r

/-- Python `dict` lookup. -/
def dictLookup (k : String) : List (String × Nat) → Option Nat
  | [] => none
  | (k', v) :: r => if k' = k then some v else dictLookup k r

/-- The keys of a Python dict, in insertion order. -/
def dictKeys (d : List (String × Nat)) : List String := d.map (·.1)

/-! ### Crawler configuration (`WebCrawler.__init__`, crawler.py 16-60) -/

/-- The caller-supplied constructor arguments of `WebCrawler`. -/
structure CrawlConfig where
  startUrl : String
  maxDepth : Nat
  maxPages : Nat
  respectRobots : Bool
  allowedDomains : Option (List String)
  searchWords : List String

/-- The crawler state fixed at construction: normalized seed, limits, the
allowed-domain set (defaulting to the seed's netloc) and the lower-cased
search words. -/
structure Crawler where
  startUrl : String
  maxDepth : Nat
  maxPages : Nat
  respectRobots : Bool
  allowedDomains : List String
  searchWords : List String

/-- `parsed.netloc` of a URL string. -/
def netlocOf (u : String) : String := ⟨(urlparseL u.data).netloc⟩

/-- `WebCrawler.__init__`: normalize the seed, derive the start domain,
default the allowed domains, lower-case the search words. -/
def mkCrawler (cfg : CrawlConfig) : Crawler :=
  let su := normalizeUrl cfg.startUrl
  { startUrl := su
    maxDepth := cfg.maxDepth
    maxPages := cfg.maxPages
    respectRobots := cfg.respectRobots
    allowedDomains :=
      match cfg.allowedDomains with
      | none => [netlocOf su]
      | some ds => ds
    searchWords := cfg.searchWords.map (fun w => ⟨lowerStr w.data⟩) }

/-- `WebCrawler._is_valid_url` against the crawler's allowed-domain set. -/
def isValidUrl (c : Crawler) (u : String) : Bool :=
  isValidUrlL (c.allowedDomains.map String.data) u.data

/-- `WebCrawler._search_content` (crawler.py 174-187): empty mapping when no
search words are configured, otherwise one entry per configured word with its
`str.count` in the lower-cased text. -/
def searchContent (c : Crawler) (text : String) : List (String × Nat) :=
  if c.searchWords.isEmpty then []
  else
    let tl := lowerStr text.data
    c.searchWords.foldl (fun d w => dictInsert w (countSub w.data tl) d) []

/-! ### Network environment

The network is modelled as a static environment: `http` gives the response
for a URL (`none` = timeout / connection error / non-2xx status raised by
`raise_for_status`), and `robots` gives, per netloc, the parsed robots.txt
policy as a decision function for the crawler's fixed user agent (`none` =
`RobotFileParser.read()` raised, i.e. the robots.txt could not be fetched).
`hrefs` stands for the anchor `href` values extracted by BeautifulSoup and
already resolved against the page URL by `urljoin` (both external
libraries); they are arbitrary absolute URL strings. -/

/-- One HTTP response the environment can serve. -/
structure FetchedPage where
  isHtml : Bool
  statusCode : Nat
  contentLength : Nat
  title : String
  description : String
  text : String
  hrefs : List String

/-- The fixed network environment of one crawl. -/
structure Env where
  http : String → Option FetchedPage
  robots : String → Option (String → Bool)

/-- First-occurrence deduplication (the `set` accumulation of
`_extract_links`, in discovery order). -/
def dedupAux (seen : List String) : List String → List String
  | [] => []
  | x :: r => if seen.contains x then dedupAux seen r else x :: dedupAux (x :: seen) r

/-- First-occurrence deduplication of a list of URLs. -/
def dedupL (l : List String) : List String := dedupAux [] l

/-- `WebCrawler._extract_links` (crawler.py 151-172): normalize each resolved
href, keep those passing `_is_valid_url`, deduplicate. -/
def extractLinks (c : Crawler) (hrefs : List String) : List String :=
  dedupL ((hrefs.map normalizeUrl).filter (fun u => isValidUrl c u))

/-! ### `WebCrawler._can_fetch` (crawler.py 120-149) -/

/-- The per-host robots cache (`self.robots_cache`). -/
abbrev RobotsCache := List (String × (String → Bool))

/-- Lookup in the robots cache. -/
def lookupCache (h : String) : RobotsCache → Option (String → Bool)
  | [] => none
  | (h', p) :: r => if h' = h then some p else lookupCache h r

/-- `WebCrawler._can_fetch`: returns the gate's answer, the updated cache
and whether a robots.txt fetch was attempted by this call.  When robots
respect is off, always allow without touching the cache.  Otherwise, on a
cache miss, attempt to read robots.txt: a successful read is cached and
consulted; a failed read answers allow WITHOUT caching anything. -/
def canFetch (env : Env) (c : Crawler) (cache : RobotsCache) (url : String) :
    Bool × RobotsCache × Bool :=
  if !c.respectRobots then (true, cache, false)
  else
    let dom := netlocOf url
    match lookupCache dom cache with
    | some rp => (rp url, cache, false)
    | none =>
      match env.robots dom with
      | some rp => (rp url, cache ++ [(dom, rp)], true)
      | none => (true, cache, true)

/-- The robots gate as a pure function of the static environment: what
`_can_fetch` answers for a URL whenever it is consulted during the crawl. -/
def robotsAllows (env : Env) (c : Crawler) (url : String) : Bool :=
  if !c.respectRobots then true
  else
    match env.robots (netlocOf url) with
    | some rp => rp url
    | none => true

/-! ### `WebCrawler._fetch_page` and `WebCrawler.crawl` -/

/-- The page record assembled by `_fetch_page` (crawler.py 233-242); the
wall-clock timestamp is outside the model. -/
structure PageRecord where
  url : String
  title : String
  description : String
  statusCode : Nat
  contentLength : Nat
  linksFound : Nat
  wordMatches : List (String × Nat)
deriving Repr, DecidableEq

/-- Observable events of the crawl loop: a frontier pop (`popleft` with its
depth), a `_fetch_page` invocation, an HTTP GET actually issued
(`session.get`, i.e. after the robots gate allowed it), and a `time.sleep`
of the politeness delay. -/
inductive Ev where
  | deq : String → Nat → Ev
  | att : String → Ev
  | get : String → Ev
  | slp : Ev
deriving Repr, DecidableEq

/-- `WebCrawler._fetch_page` (crawler.py 189-258): consult the robots gate
(deny → nothing, no GET); issue the GET (`none` response = transport/HTTP
error → nothing); non-HTML content-type → nothing; otherwise build the page
record and extract the outbound links. -/
def fetchPage (env : Env) (c : Crawler) (cache : RobotsCache) (url : String) :
    Option (PageRecord × List String) × RobotsCache × List Ev :=
  let cf := canFetch env c cache url
  if !cf.1 then (none, cf.2.1, [Ev.att url])
  else
    match env.http url with
    | none => (none, cf.2.1, [Ev.att url, Ev.get url])
    | some pg =>
      if !pg.isHtml then (none, cf.2.1, [Ev.att url, Ev.get url])
      else
        let links := extractLinks c pg.hrefs
        (some ({ url := url
                 title := pg.title
                 description := pg.description
                 statusCode := pg.statusCode
                 contentLength := pg.contentLength
                 linksFound := links.length
                 wordMatches := searchContent c pg.text }, links),
         cf.2.1, [Ev.att url, Ev.get url])

/-- The mutable state of `WebCrawler.crawl`: the frontier deque, the visited
set (insertion-ordered), the result list (each record paired with its
discovery depth, a ghost field used to state the depth invariant), the
`pages_crawled` counter and the robots cache. -/
structure CrawlState where
  queue : List (String × Nat)
  visited : List String
  records : List (PageRecord × Nat)
  pagesCrawled : Nat
  cache : RobotsCache

/-- One iteration of the `while` loop of `WebCrawler.crawl` (crawler.py
275-308).  `none` means the loop guard fails (empty frontier or page budget
reached).  The two `continue` branches (already visited, depth exceeded) pop
without fetching and without sleeping.  Otherwise the URL is marked visited,
fetched, on success its record is appended and unvisited links are enqueued
at `depth+1` when `depth < max_depth`, and the politeness sleep happens iff
the frontier is non-empty at the end of the iteration. -/
def crawlStep (env : Env) (c : Crawler) (s : CrawlState) : Option (CrawlState × List Ev) :=
  match s.queue with
  | [] => none
  | (u, d) :: rest =>
    if c.maxPages ≤ s.pagesCrawled then none
    else if u ∈ s.visited then some ({ s with queue := rest }, [Ev.deq u d])
    else if c.maxDepth < d then some ({ s with queue := rest }, [Ev.deq u d])
    else
      let visited' := s.visited ++ [u]
      match fetchPage env c s.cache u with
      | (none, cache', fevs) =>
        some ({ queue := rest, visited := visited', records := s.records,
                pagesCrawled := s.pagesCrawled, cache := cache' },
              Ev.deq u d :: fevs ++ (if rest.isEmpty then [] else [Ev.slp]))
      | (some (rec, links), cache', fevs) =>
        let fresh :=
          if d < c.maxDepth
          then (links.filter (fun l => decide (l ∉ visited'))).map (fun l => (l, d + 1))
          else []
        let q' := rest ++ fresh
        some ({ queue := q', visited := visited',
                records := s.records ++ [(rec, d)],
                pagesCrawled := s.pagesCrawled + 1, cache := cache' },
              Ev.deq u d :: fevs ++ (if q'.isEmpty then [] else [Ev.slp]))

/-- Fuel-indexed iteration of `crawlStep`, accumulating the event trace.
The Python loop runs until the guard fails; every property proved below
holds for every amount of fuel, in particular for the amount at which the
run reaches the guard failure. -/
def crawlLoop (env : Env) (c : Crawler) : Nat → CrawlState → CrawlState × List Ev
  | 0, s => (s, [])
  | Nat.succ fuel, s =>
    match crawlStep env c s with
    | none => (s, [])
    | some (s', evs) =>
      let r := crawlLoop env c fuel s'
      (r.1, evs ++ r.2)

/-- The initial state of `WebCrawler.crawl`: the normalized seed at depth 0,
nothing visited, no results, empty robots cache. -/
def initState (c : Crawler) : CrawlState :=
  { queue := [(c.startUrl, 0)], visited := [], records := [], pagesCrawled := 0, cache := [] }

/-- `WebCrawler.crawl` from a fresh crawler built from `cfg`. -/
def crawl (env : Env) (cfg : CrawlConfig) (fuel : Nat) : CrawlState × List Ev :=
  crawlLoop env (mkCrawler cfg) fuel (initState (mkCrawler cfg))

/-! ### Trace observations -/

/-- The depths of the dequeue events of a trace, in order. -/
def deqDepths : List Ev → List Nat :=
  List.filterMap (fun e => match e with | Ev.deq _ d => some d | _ => none)

/-- The URLs on which `_fetch_page` was invoked, in order. -/
def attUrls : List Ev → List String :=
  List.filterMap (fun e => match e with | Ev.att u => some u | _ => none)

/-- The URLs for which an HTTP GET was issued, in order. -/
def getUrls : List Ev → List String :=
  List.filterMap (fun e => match e with | Ev.get u => some u | _ => none)

/-- Scan checking that between any two consecutive dequeue events there is a
sleep event (`pend = true` while a dequeue has happened with no sleep yet). -/
def sleepSepFrom (pend : Bool) : List Ev → Bool
  | [] => true
  | Ev.deq _ _ :: r => if pend then false else sleepSepFrom true r
  | Ev.slp :: r => sleepSepFrom false r
  | _ :: r => sleepSepFrom pend r

/-- Every dequeue after the first is preceded by a politeness sleep — the
trace-level consequence of the claim that the delay is skipped only when the
frontier is empty. -/
def sleepSeparated (l : List Ev) : Bool := sleepSepFrom false l

/-! ### Predicates for the normalizer claims -/

/-- A well-formed host component: netloc characters only (no `/?#`) and none
of the unsafe bytes removed by `urlsplit`. -/
def hostOk (h : List Char) : Bool := h.all (fun c => netlocChar c && keepChar c)

/-- Reassembly of a fragment-free path-query tail exactly as the unparse
stage of `_normalize_url` rebuilds it: split off the query at the first `?`,
split params from the path, then re-join each part only when non-empty. -/
def pqReassemble (p : List Char) : List Char :=
  let qs :=
    match splitFirst '?' p with
    | some (a, b) => (a, b)
    | none => (p, [])
  let pp := if qs.1.contains ';' then splitParams qs.1 else (qs.1, [])
  let url := if !pp.2.isEmpty then pp.1 ++ ';' :: pp.2 else pp.1
  if !qs.2.isEmpty then url ++ '?' :: qs.2 else url

/-- A canonical path-query tail: empty or `/`-led, fragment-free, free of
removed bytes, and a fixpoint of reassembly (no dangling empty `?` query or
empty `;` params, which `urlunparse` would drop). -/
def tailOk (p : List Char) : Bool :=
  (p.isEmpty || isPref ['/'] p) && p.all (fun c => !(c = '#') && keepChar c) &&
    (pqReassemble p == p)

/-! ### Concrete environments used to settle the claims on explicit inputs -/

/-- An HTML page serving the given resolved hrefs. -/
def pgHtml (hrefs : List String) : FetchedPage :=
  { isHtml := true, statusCode := 200, contentLength := 100, title := "t",
    description := "", text := "", hrefs := hrefs }

/-- A successfully fetched non-HTML response. -/
def pgPlain : FetchedPage :=
  { isHtml := false, statusCode := 200, contentLength := 5, title := "",
    description := "", text := "", hrefs := [] }

/-- Seed whose path ends in `.pdf`: one HTML page, no robots. -/
def envC1 : Env :=
  { http := fun u => if u = "https://example.com/file.pdf" then some (pgHtml []) else none
    robots := fun _ => none }

/-- Configuration whose seed URL fails the scope filter. -/
def cfgC1 : CrawlConfig :=
  { startUrl := "https://example.com/file.pdf", maxDepth := 2, maxPages := 10,
    respectRobots := false, allowedDomains := none, searchWords := [] }

/-- Environment in which every robots.txt fetch fails. -/
def envC2 : Env := { http := fun _ => none, robots := fun _ => none }

/-- A robots-respecting crawler for `envC2`. -/
def crawlerC2 : Crawler :=
  mkCrawler { startUrl := "https://h.com/x", maxDepth := 0, maxPages := 1,
              respectRobots := true, allowedDomains := none, searchWords := [] }

/-- Environment for the robots fetch-attempt comparison: the seed links to
five same-domain pages; `/a` is HTML but denied by robots, the remaining
four are served as non-HTML responses. -/
def envC3 : Env :=
  { http := fun u =>
      if u = "https://s.com/" then
        some (pgHtml ["https://s.com/a", "https://s.com/b", "https://s.com/c",
                      "https://s.com/d", "https://s.com/e"])
      else if u = "https://s.com/a" then some (pgHtml [])
      else if u = "https://s.com/b" then some pgPlain
      else if u = "https://s.com/c" then some pgPlain
      else if u = "https://s.com/d" then some pgPlain
      else if u = "https://s.com/e" then some pgPlain
      else none
    robots := fun d =>
      if d = "s.com" then some (fun u => !(u = "https://s.com/a")) else none }

/-- The `envC3` crawl configuration, with the robots flag as parameter. -/
def cfgC3 (r : Bool) : CrawlConfig :=
  { startUrl := "https://s.com/", maxDepth := 2, maxPages := 2,
    respectRobots := r, allowedDomains := none, searchWords := [] }

/-- Environment producing a duplicate frontier entry: the seed links to `p1`
and `p2`, and `p1` links to `p2` (again) and `p3`. -/
def envC5 : Env :=
  { http := fun u =>
      if u = "https://s.com/" then some (pgHtml ["https://s.com/p1", "https://s.com/p2"])
      else if u = "https://s.com/p1" then some (pgHtml ["https://s.com/p2", "https://s.com/p3"])
      else if u = "https://s.com/p2" then some (pgHtml [])
      else if u = "https://s.com/p3" then some (pgHtml [])
      else none
    robots := fun _ => none }

/-- Configuration for `envC5`. -/
def cfgC5 : CrawlConfig :=
  { startUrl := "https://s.com/", maxDepth := 3, maxPages := 10,
    respectRobots := false, allowedDomains := none, searchWords := [] }

/-- Environment where every HTTP fetch fails (used to witness one loop
iteration explicitly). -/
def envW : Env := { http := fun _ => none, robots := fun _ => none }

/-- Crawler for the single-iteration witness. -/
def crawlerW : Crawler :=
  mkCrawler { startUrl := "https://w.com/", maxDepth := 0, maxPages := 5,
              respectRobots := false, allowedDomains := none, searchWords := [] }

/-- A mid-crawl state with a two-element frontier. -/
def stateW : CrawlState :=
  { queue := [("https://w.com/", 0), ("https://w.com/b", 0)],
    visited := [], records := [], pagesCrawled := 0, cache := [] }

/-- Configuration with one search word, for the content-search example. -/
def cfgC9 : CrawlConfig :=
  { startUrl := "https://example.com", maxDepth := 0, maxPages := 1,
    respectRobots := false, allowedDomains := none, searchWords := ["cat"] }

/-! ## Lemmas about the Python dict model -/

theorem dictLookup_insert (k w : String) (v : Nat) (d : List (String × Nat)) :
    dictLookup k (dictInsert w v d) = if w = k then some v else dictLookup k d := by
  induction d with
  | nil => simp [dictInsert, dictLookup]
  | cons kv r ih =>
    obtain ⟨k', v'⟩ := kv
    simp only [dictInsert]
    by_cases hk : k' = w
    · subst hk
      simp only [if_pos rfl, dictLookup]
      by_cases hkk : k' = k
      · simp [hkk]
      · simp [dictLookup, hkk]
    · simp only [if_neg hk, dictLookup, ih]
      by_cases hkk : k' = k
      · subst hkk
        have hw : ¬(w = k') := fun h => hk h.symm
        simp [hw]
      · simp [hkk]

theorem dictLookup_build (f : String → Nat) (ws : List String) :
    ∀ (acc : List (String × Nat)) (k : String),
      dictLookup k (ws.foldl (fun d w => dictInsert w (f w) d) acc) =
        if k ∈ ws then some (f k) else dictLookup k acc := by
  induction ws with
  | nil => intro acc k; simp
  | cons w ws ih =>
    intro acc k
    simp only [List.foldl_cons, ih, dictLookup_insert, List.mem_cons]
    by_cases hws : k ∈ ws
    · simp [hws]
    · by_cases hw : w = k
      · subst hw; simp [hws]
      · have hw' : ¬(k = w) := fun h => hw h.symm
        simp [hws, hw, hw']

theorem dictLookup_isSome_iff (k : String) (d : List (String × Nat)) :
    (dictLookup k d).isSome = true ↔ k ∈ dictKeys d := by
  induction d with
  | nil => simp [dictLookup, dictKeys]
  | cons kv r ih =>
    obtain ⟨k', v'⟩ := kv
    by_cases hk : k' = k
    · subst hk; simp [dictLookup, dictKeys]
    · have hk' : ¬(k = k') := fun h => hk h.symm
      simp [dictLookup, dictKeys, hk, hk', ih]

theorem searchContent_lookup (c : Crawler) (t : String) (w : String)
    (hw : w ∈ c.searchWords) :
    dictLookup w (searchContent c t) = some (countSub w.data (lowerStr t.data)) := by
  have hne : c.searchWords.isEmpty = false := by
    cases h : c.searchWords with
    | nil => rw [h] at hw; cases hw
    | cons a l => simp
  unfold searchContent
  rw [hne]
  simp only [Bool.false_eq_true, if_false]
  rw [dictLookup_build (fun w => countSub w.data (lowerStr t.data)) c.searchWords []]
  simp [hw]

/-! ## Lemmas about the robots gate and the page fetcher -/

theorem lookupCache_mem {h : String} {p : String → Bool} :
    ∀ {cache : RobotsCache}, lookupCache h cache = some p → (h, p) ∈ cache := by
  intro cache
  induction cache with
  | nil => intro hl; cases hl
  | cons e r ih =>
    obtain ⟨h', p'⟩ := e
    intro hl
    by_cases hh : h' = h
    · subst hh
      simp only [lookupCache, if_pos] at hl
      rw [Option.some.injEq] at hl
      subst hl
      exact List.mem_cons_self _ _
    · simp only [lookupCache, if_neg hh] at hl
      exact List.mem_cons_of_mem _ (ih hl)

/-- With a cache whose entries agree with the environment, `_can_fetch`
answers exactly the pure robots gate, and cache agreement is preserved. -/
theorem canFetch_eq_robotsAllows (env : Env) (c : Crawler) (cache : RobotsCache) (url : String)
    (hc : ∀ h p, (h, p) ∈ cache → env.robots h = some p) :
    (canFetch env c cache url).1 = robotsAllows env c url ∧
    (∀ h p, (h, p) ∈ (canFetch env c cache url).2.1 → env.robots h = some p) := by
  cases hr : c.respectRobots with
  | false =>
    constructor
    · simp [canFetch, robotsAllows, hr]
    · intro h p hp
      apply hc
      simpa [canFetch, hr] using hp
  | true =>
    cases hl : lookupCache (netlocOf url) cache with
    | some rp =>
      have hmem := hc _ _ (lookupCache_mem hl)
      constructor
      · simp [canFetch, robotsAllows, hr, hl, hmem]
      · intro h p hp
        apply hc
        simpa [canFetch, hr, hl] using hp
    | none =>
      cases he : env.robots (netlocOf url) with
      | some rp =>
        constructor
        · simp [canFetch, robotsAllows, hr, hl, he]
        · intro h p hp
          simp only [canFetch, hr, hl, he, Bool.not_true, Bool.false_eq_true, if_false] at hp
          rcases List.mem_append.mp hp with hold | hnew
          · exact hc _ _ hold
          · have h2 := List.mem_singleton.mp hnew
            have h3 : h = netlocOf url := congrArg Prod.fst h2
            have h4 : p = rp := congrArg Prod.snd h2
            rw [h3, h4, he]
      | none =>
        constructor
        · simp [canFetch, robotsAllows, hr, hl, he]
        · intro h p hp
          apply hc
          simpa [canFetch, hr, hl, he] using hp

theorem fetchPage_cache (env : Env) (c : Crawler) (cache : RobotsCache) (url : String) :
    (fetchPage env c cache url).2.1 = (canFetch env c cache url).2.1 := by
  unfold fetchPage
  cases h1 : (canFetch env c cache url).1 with
  | false => simp [h1]
  | true =>
    simp only [h1, Bool.not_true, Bool.false_eq_true, if_false]
    cases h2 : env.http url with
    | none => rfl
    | some pg =>
      cases h3 : pg.isHtml with
      | false => simp [h3]
      | true => simp [h3]

theorem fetchPage_evs (env : Env) (c : Crawler) (cache : RobotsCache) (url : String) :
    (fetchPage env c cache url).2.2 = [Ev.att url] ∨
    (fetchPage env c cache url).2.2 = [Ev.att url, Ev.get url] := by
  unfold fetchPage
  cases h1 : (canFetch env c cache url).1 with
  | false => left; simp [h1]
  | true =>
    simp only [h1, Bool.not_true, Bool.false_eq_true, if_false]
    cases h2 : env.http url with
    | none => right; rfl
    | some pg =>
      cases h3 : pg.isHtml with
      | false => right; simp [h3]
      | true => right; simp [h3]

/-- Characterisation of a successful `_fetch_page`: the robots gate allowed
the URL, an HTML response was served, and the record and link set are built
from it. -/
theorem fetchPage_some_spec {env : Env} {c : Crawler} {cache : RobotsCache} {u : String}
    {rec : PageRecord} {links : List String} {cache' : RobotsCache} {fevs : List Ev}
    (h : fetchPage env c cache u = (some (rec, links), cache', fevs)) :
    (canFetch env c cache u).1 = true ∧ cache' = (canFetch env c cache u).2.1 ∧
    ∃ pg, env.http u = some pg ∧ pg.isHtml = true ∧
      links = extractLinks c pg.hrefs ∧
      rec = { url := u, title := pg.title, description := pg.description,
              statusCode := pg.statusCode, contentLength := pg.contentLength,
              linksFound := (extractLinks c pg.hrefs).length,
              wordMatches := searchContent c pg.text } := by
  unfold fetchPage at h
  cases h1 : (canFetch env c cache u).1 with
  | false => simp [h1] at h
  | true =>
    simp only [h1, Bool.not_true, Bool.false_eq_true, if_false] at h
    cases h2 : env.http u with
    | none => rw [h2] at h; simp at h
    | some pg =>
      rw [h2] at h
      cases h3 : pg.isHtml with
      | false => simp [h3] at h
      | true =>
        simp only [h3, Bool.not_true, Bool.false_eq_true, if_false,
          Prod.mk.injEq, Option.some.injEq] at h
        obtain ⟨⟨hrec, hlinks⟩, hcache, _⟩ := h
        exact ⟨by simp [h1], hcache.symm, pg, by simp [h2], by simp [h3],
          hlinks.symm, hrec.symm⟩

theorem mem_dedupAux {x : String} :
    ∀ {l seen : List String}, x ∈ dedupAux seen l → x ∈ l := by
  intro l
  induction l with
  | nil => intro seen h; cases h
  | cons a r ih =>
    intro seen h
    unfold dedupAux at h
    by_cases hs : seen.contains a
    · rw [if_pos hs] at h
      exact List.mem_cons_of_mem _ (ih h)
    · rw [if_neg hs] at h
      rcases List.mem_cons.mp h with h' | h'
      · exact h' ▸ List.mem_cons_self _ _
      · exact List.mem_cons_of_mem _ (ih h')

/-- Every link returned by `_extract_links` passed the scope filter. -/
theorem extractLinks_valid {c : Crawler} {hrefs : List String} {u : String}
    (hu : u ∈ extractLinks c hrefs) : isValidUrl c u = true := by
  unfold extractLinks dedupL at hu
  exact (List.mem_filter.mp (mem_dedupAux hu)).2

/-! ## The crawl-loop step: case analysis and iteration lemmas -/

theorem crawlLoop_succ_none {env : Env} {c : Crawler} {s : CrawlState} {fuel : Nat}
    (h : crawlStep env c s = none) :
    crawlLoop env c (fuel + 1) s = (s, []) := by
  simp [crawlLoop, h]

theorem crawlLoop_succ_some {env : Env} {c : Crawler} {s s' : CrawlState}
    {evs : List Ev} {fuel : Nat} (h : crawlStep env c s = some (s', evs)) :
    crawlLoop env c (fuel + 1) s =
      ((crawlLoop env c fuel s').1, evs ++ (crawlLoop env c fuel s').2) := by
  simp [crawlLoop, h]

/-- Complete case analysis of one loop iteration: the frontier was non-empty
and the page budget not reached, and the iteration either discarded an
already-visited entry, discarded a too-deep entry, processed a failing
fetch, or processed a successful fetch. -/
theorem crawlStep_cases {env : Env} {c : Crawler} {s s' : CrawlState} {evs : List Ev}
    (h : crawlStep env c s = some (s', evs)) :
    ∃ u d rest, s.queue = (u, d) :: rest ∧ s.pagesCrawled < c.maxPages ∧
    ((u ∈ s.visited ∧ s' = { s with queue := rest } ∧ evs = [Ev.deq u d]) ∨
     (u ∉ s.visited ∧ c.maxDepth < d ∧ s' = { s with queue := rest } ∧ evs = [Ev.deq u d]) ∨
     (u ∉ s.visited ∧ d ≤ c.maxDepth ∧
       ((∃ cache' fevs, fetchPage env c s.cache u = (none, cache', fevs) ∧
          s' = { queue := rest, visited := s.visited ++ [u], records := s.records,
                 pagesCrawled := s.pagesCrawled, cache := cache' } ∧
          evs = Ev.deq u d :: fevs ++ (if rest.isEmpty then [] else [Ev.slp])) ∨
        (∃ rec links cache' fevs,
          fetchPage env c s.cache u = (some (rec, links), cache', fevs) ∧
          s' = { queue := rest ++ (if d < c.maxDepth then
                   (links.filter (fun l => decide (l ∉ s.visited ++ [u]))).map (fun l => (l, d + 1))
                   else []),
                 visited := s.visited ++ [u], records := s.records ++ [(rec, d)],
                 pagesCrawled := s.pagesCrawled + 1, cache := cache' } ∧
          evs = Ev.deq u d :: fevs ++
            (if (rest ++ (if d < c.maxDepth then
               (links.filter (fun l => decide (l ∉ s.visited ++ [u]))).map (fun l => (l, d + 1))
               else [])).isEmpty then [] else [Ev.slp]))))) := by
  obtain ⟨q, vis, recs, pages, rcache⟩ := s
  cases q with
  | nil => simp [crawlStep] at h
  | cons ud rest =>
    obtain ⟨u, d⟩ := ud
    simp only [crawlStep] at h
    by_cases hb : c.maxPages ≤ pages
    · rw [if_pos hb] at h; cases h
    · rw [if_neg hb] at h
      refine ⟨u, d, rest, rfl, Nat.not_le.mp hb, ?_⟩
      by_cases hv : u ∈ vis
      · rw [if_pos hv] at h
        rw [Option.some.injEq, Prod.mk.injEq] at h
        obtain ⟨hs, he⟩ := h
        exact Or.inl ⟨hv, hs.symm, he.symm⟩
      · rw [if_neg hv] at h
        by_cases hd : c.maxDepth < d
        · rw [if_pos hd] at h
          rw [Option.some.injEq, Prod.mk.injEq] at h
          obtain ⟨hs, he⟩ := h
          exact Or.inr (Or.inl ⟨hv, hd, hs.symm, he.symm⟩)
        · rw [if_neg hd] at h
          refine Or.inr (Or.inr ⟨hv, Nat.not_lt.mp hd, ?_⟩)
          rcases hf : fetchPage env c rcache u with ⟨res, cache', fevs⟩
          rw [hf] at h
          cases res with
          | none =>
            rw [Option.some.injEq, Prod.mk.injEq] at h
            obtain ⟨hs, he⟩ := h
            exact Or.inl ⟨cache', fevs, rfl, hs.symm, he.symm⟩
          | some rl =>
            obtain ⟨rec, links⟩ := rl
            rw [Option.some.injEq, Prod.mk.injEq] at h
            obtain ⟨hs, he⟩ := h
            exact Or.inr ⟨rec, links, cache', fevs, rfl, hs.symm, he.symm⟩

/-- Any state predicate preserved by single steps is preserved by the whole
loop. -/
theorem crawlLoop_inv (env : Env) (c : Crawler) (P : CrawlState → Prop)
    (hstep : ∀ s s' evs, crawlStep env c s = some (s', evs) → P s → P s') :
    ∀ fuel s, P s → P (crawlLoop env c fuel s).1 := by
  intro fuel
  induction fuel with
  | zero => intro s h; exact h
  | succ n ih =>
    intro s h
    cases hs : crawlStep env c s with
    | none => rw [crawlLoop_succ_none hs]; exact h
    | some pr =>
      obtain ⟨s', evs⟩ := pr
      rw [crawlLoop_succ_some hs]
      exact ih s' (hstep s s' evs hs h)

theorem searchContent_keys (c : Crawler) (t : String) (k : String) :
    k ∈ dictKeys (searchContent c t) ↔ k ∈ c.searchWords := by
  constructor
  · intro hk
    rw [← dictLookup_isSome_iff] at hk
    unfold searchContent at hk
    by_cases he : c.searchWords.isEmpty
    · rw [if_pos he] at hk
      simp [dictLookup] at hk
    · rw [if_neg he] at hk
      rw [dictLookup_build (fun w => countSub w.data (lowerStr t.data)) c.searchWords []] at hk
      by_cases hm : k ∈ c.searchWords
      · exact hm
      · rw [if_neg hm] at hk
        simp [dictLookup] at hk
  · intro hm
    rw [← dictLookup_isSome_iff, searchContent_lookup c t k hm]
    rfl

/-! ## Claim C2 -/

/-- C2 (counterexample): the claim says that when the robots.txt for a host
cannot be fetched, an allow-all policy is CACHED so the failed fetch is
never retried.  In `envC2` every robots fetch fails: the gate answers true,
but the cache stays empty, and a second query for the same URL attempts the
robots fetch again (third component `true`). -/
theorem C2_cex :
    (canFetch envC2 crawlerC2 [] "https://h.com/x").1 = true ∧
    (canFetch envC2 crawlerC2 [] "https://h.com/x").2.1.isEmpty = true ∧
    (canFetch envC2 crawlerC2
      ((canFetch envC2 crawlerC2 [] "https://h.com/x").2.1) "https://h.com/x").2.2 = true :=
  ⟨rfl, rfl, rfl⟩

/-- C2 (amended): with robots respect enabled, a robots.txt fetch failure
makes `_can_fetch` answer true WITHOUT caching anything, so the next query
for that host attempts the robots fetch again; a successfully fetched
policy is appended to the cache; and a cached policy is answered from the
cache without any fetch, so cached entries persist for the crawl. -/
theorem C2_amended (env : Env) (c : Crawler) (cache : RobotsCache) (url : String)
    (hresp : c.respectRobots = true) :
    (lookupCache (netlocOf url) cache = none → env.robots (netlocOf url) = none →
       canFetch env c cache url = (true, cache, true)) ∧
    (∀ rp, lookupCache (netlocOf url) cache = none → env.robots (netlocOf url) = some rp →
       canFetch env c cache url = (rp url, cache ++ [(netlocOf url, rp)], true)) ∧
    (∀ rp, lookupCache (netlocOf url) cache = some rp →
       canFetch env c cache url = (rp url, cache, false)) := by
  refine ⟨?_, ?_, ?_⟩
  · intro h1 h2
    simp [canFetch, hresp, h1, h2]
  · intro rp h1 h2
    simp [canFetch, hresp, h1, h2]
  · intro rp h1
    simp [canFetch, hresp, h1]

/-- C2 (witness): the amended fail-open behaviour at the concrete inputs. -/
theorem C2_amended_witness :
    canFetch envC2 crawlerC2 [] "https://h.com/x" = (true, [], true) :=
  (C2_amended envC2 crawlerC2 [] "https://h.com/x" rfl).1 rfl rfl

/-! ## Claim C9 -/

/-- C9: the Content Searcher returns the empty mapping when no search words
are configured, and otherwise maps each configured (lower-cased) term to its
non-overlapping, case-insensitive literal substring count in the text
(`str.count` of the lower-cased term in the lower-cased text). -/
theorem C9_search_counts (cfg : CrawlConfig) (t : String) :
    (cfg.searchWords = [] → searchContent (mkCrawler cfg) t = []) ∧
    (∀ w, w ∈ cfg.searchWords →
      dictLookup ⟨lowerStr w.data⟩ (searchContent (mkCrawler cfg) t) =
        some (countSub (lowerStr w.data) (lowerStr t.data))) := by
  constructor
  · intro h
    have hempty : (mkCrawler cfg).searchWords = [] := by
      simp [mkCrawler, h]
    unfold searchContent
    simp [hempty]
  · intro w hw
    have hmem : (⟨lowerStr w.data⟩ : String) ∈ (mkCrawler cfg).searchWords := by
      simp only [mkCrawler]
      exact List.mem_map.mpr ⟨w, hw, rfl⟩
    exact searchContent_lookup (mkCrawler cfg) t _ hmem

/-- C9 (witness): searching for `"cat"` in `"Cat cat CATs"` yields count 3,
counting the occurrence inside `"CATs"`. -/
theorem C9_witness :
    dictLookup "cat" (searchContent (mkCrawler cfgC9) "Cat cat CATs") = some 3 := by
  have h := (C9_search_counts cfgC9 "Cat cat CATs").2 "cat" (by decide)
  have e1 : ({ data := lowerStr "cat".data } : String) = "cat" := rfl
  have e2 : some (countSub (lowerStr "cat".data) (lowerStr "Cat cat CATs".data)) =
      some 3 := by decide
  rw [e1, e2] at h
  exact h

/-! ## Claim C6 -/

/-- C6: for every crawl, the result list has at most `max_pages` records,
and the discovery depth of every record is at most `max_depth`. -/
theorem C6_limits (env : Env) (cfg : CrawlConfig) (fuel : Nat) :
    (crawl env cfg fuel).1.records.length ≤ cfg.maxPages ∧
    ((crawl env cfg fuel).1.records.all (fun p => decide (p.2 ≤ cfg.maxDepth))) = true := by
  have hmp : (mkCrawler cfg).maxPages = cfg.maxPages := rfl
  have hmd : (mkCrawler cfg).maxDepth = cfg.maxDepth := rfl
  have key := crawlLoop_inv env (mkCrawler cfg)
    (fun s => s.records.length = s.pagesCrawled ∧ s.pagesCrawled ≤ cfg.maxPages ∧
              ∀ p ∈ s.records, p.2 ≤ cfg.maxDepth)
    ?_ fuel (initState (mkCrawler cfg)) ?_
  · obtain ⟨h1, h2, h3⟩ := key
    constructor
    · exact h1 ▸ h2
    · rw [List.all_eq_true]
      intro p hp
      exact decide_eq_true (h3 p hp)
  · intro s s' evs hstep hP
    obtain ⟨hlen, hbud, hdep⟩ := hP
    obtain ⟨u, d, rest, hq, hb, hcases⟩ := crawlStep_cases hstep
    rw [hmp] at hb
    rcases hcases with ⟨_, hs, _⟩ | ⟨_, _, hs, _⟩ |
      ⟨_, hdle, ⟨cache', fevs, hf, hs, _⟩ | ⟨rec, links, cache', fevs, hf, hs, _⟩⟩
    · rw [hs]; exact ⟨hlen, hbud, hdep⟩
    · rw [hs]; exact ⟨hlen, hbud, hdep⟩
    · rw [hs]; exact ⟨hlen, hbud, hdep⟩
    · rw [hs]
      dsimp only
      refine ⟨?_, ?_, ?_⟩
      · simp only [List.length_append, List.length_cons, List.length_nil, hlen]
      · omega
      · intro p hp
        rcases List.mem_append.mp hp with hold | hnew
        · exact hdep p hold
        · rw [List.mem_singleton.mp hnew]
          rw [hmd] at hdle
          exact hdle
  · exact ⟨rfl, Nat.zero_le _, fun p hp => absurd hp (List.not_mem_nil p)⟩

/-! ## Claim C7 -/

theorem attUrls_append (a b : List Ev) : attUrls (a ++ b) = attUrls a ++ attUrls b :=
  List.filterMap_append ..

/-- The sleep part of an iteration's events is empty or a single sleep. -/
theorem ite_sleep_cases (b : Bool) :
    (if b = true then ([] : List Ev) else [Ev.slp]) = [] ∨
    (if b = true then ([] : List Ev) else [Ev.slp]) = [Ev.slp] := by
  cases b <;> simp

/-- The fetch-page invocation events of one processing iteration name
exactly the dequeued URL. -/
theorem attUrls_step {u : String} {d : Nat} {fevs tail : List Ev}
    (hf : fevs = [Ev.att u] ∨ fevs = [Ev.att u, Ev.get u])
    (ht : tail = [] ∨ tail = [Ev.slp]) :
    attUrls (Ev.deq u d :: fevs ++ tail) = [u] := by
  rcases hf with h | h <;> rcases ht with h2 | h2 <;> subst h <;> subst h2 <;> rfl

/-- Along any run, the `_fetch_page` invocations are pairwise distinct and
avoid the initially visited URLs. -/
theorem crawlLoop_att_nodup (env : Env) (c : Crawler) :
    ∀ (fuel : Nat) (s : CrawlState),
      (attUrls (crawlLoop env c fuel s).2).Nodup ∧
      ∀ u ∈ attUrls (crawlLoop env c fuel s).2, u ∉ s.visited := by
  intro fuel
  induction fuel with
  | zero =>
    intro s
    constructor
    · simp [crawlLoop, attUrls]
    · intro u hu; simp [crawlLoop, attUrls] at hu
  | succ n ih =>
    intro s
    cases hs : crawlStep env c s with
    | none =>
      rw [crawlLoop_succ_none hs]
      constructor
      · simp [attUrls]
      · intro u hu; simp [attUrls] at hu
    | some pr =>
      obtain ⟨s', evs⟩ := pr
      rw [crawlLoop_succ_some hs]
      obtain ⟨u, d, rest, hq, hb, hcases⟩ := crawlStep_cases hs
      rcases hcases with ⟨hv, hss, he⟩ | ⟨hv, _, hss, he⟩ |
        ⟨hv, _, ⟨cache', fevs, hf, hss, he⟩ | ⟨rec, links, cache', fevs, hf, hss, he⟩⟩
      · subst he
        rw [attUrls_append]
        have hnil : attUrls [Ev.deq u d] = [] := rfl
        rw [hnil, List.nil_append]
        have hvis : s'.visited = s.visited := by rw [hss]
        exact ⟨(ih s').1, fun x hx => hvis ▸ (ih s').2 x hx⟩
      · subst he
        rw [attUrls_append]
        have hnil : attUrls [Ev.deq u d] = [] := rfl
        rw [hnil, List.nil_append]
        have hvis : s'.visited = s.visited := by rw [hss]
        exact ⟨(ih s').1, fun x hx => hvis ▸ (ih s').2 x hx⟩
      · subst he
        have hfe : fevs = [Ev.att u] ∨ fevs = [Ev.att u, Ev.get u] := by
          have h2 := fetchPage_evs env c s.cache u
          rw [hf] at h2
          simpa using h2
        have hevs := attUrls_step (d := d) hfe (ite_sleep_cases rest.isEmpty)
        rw [attUrls_append, hevs, List.singleton_append]
        have hvis : s'.visited = s.visited ++ [u] := by rw [hss]
        obtain ⟨ihN, ihV⟩ := ih s'
        constructor
        · rw [List.nodup_cons]
          refine ⟨?_, ihN⟩
          intro hmem
          exact (hvis ▸ ihV u hmem) (List.mem_append_right _ (List.mem_singleton_self u))
        · intro x hx
          rcases List.mem_cons.mp hx with h1 | h1
          · subst h1; exact hv
          · intro hxv
            exact (hvis ▸ ihV x h1) (List.mem_append_left _ hxv)
      · subst he
        have hfe : fevs = [Ev.att u] ∨ fevs = [Ev.att u, Ev.get u] := by
          have h2 := fetchPage_evs env c s.cache u
          rw [hf] at h2
          simpa using h2
        have hevs := attUrls_step (d := d) hfe
          (ite_sleep_cases ((rest ++ (if d < c.maxDepth then
            (links.filter (fun l => decide (l ∉ s.visited ++ [u]))).map (fun l => (l, d + 1))
            else [])).isEmpty))
        rw [attUrls_append, hevs, List.singleton_append]
        have hvis : s'.visited = s.visited ++ [u] := by rw [hss]
        obtain ⟨ihN, ihV⟩ := ih s'
        constructor
        · rw [List.nodup_cons]
          refine ⟨?_, ihN⟩
          intro hmem
          exact (hvis ▸ ihV u hmem) (List.mem_append_right _ (List.mem_singleton_self u))
        · intro x hx
          rcases List.mem_cons.mp hx with h1 | h1
          · subst h1; exact hv
          · intro hxv
            exact (hvis ▸ ihV x h1) (List.mem_append_left _ hxv)

/-- C7: `_fetch_page` is never invoked twice on the same URL during a crawl
(whether or not the fetch succeeded), and no URL appears twice in the result
list. -/
theorem C7_no_refetch (env : Env) (cfg : CrawlConfig) (fuel : Nat) :
    (attUrls (crawl env cfg fuel).2).Nodup ∧
    ((crawl env cfg fuel).1.records.map (fun p => p.1.url)).Nodup := by
  constructor
  · exact (crawlLoop_att_nodup env (mkCrawler cfg) fuel (initState (mkCrawler cfg))).1
  · have key := crawlLoop_inv env (mkCrawler cfg)
      (fun s => (s.records.map (fun p => p.1.url)).Nodup ∧
                ∀ p ∈ s.records, p.1.url ∈ s.visited)
      ?_ fuel (initState (mkCrawler cfg)) ?_
    · exact key.1
    · intro s s' evs hstep hP
      obtain ⟨hN, hV⟩ := hP
      obtain ⟨u, d, rest, hq, hb, hcases⟩ := crawlStep_cases hstep
      rcases hcases with ⟨_, hss, _⟩ | ⟨_, _, hss, _⟩ |
        ⟨hv, _, ⟨cache', fevs, hf, hss, _⟩ | ⟨rec, links, cache', fevs, hf, hss, _⟩⟩
      · rw [hss]; exact ⟨hN, hV⟩
      · rw [hss]; exact ⟨hN, hV⟩
      · rw [hss]
        dsimp only
        exact ⟨hN, fun p hp => List.mem_append_left _ (hV p hp)⟩
      · rw [hss]
        dsimp only
        have hrec : rec.url = u := by
          obtain ⟨_, _, pg, _, _, _, hreq⟩ := fetchPage_some_spec hf
          rw [hreq]
        constructor
        · rw [List.map_append, List.nodup_append]
          refine ⟨hN, List.nodup_singleton _, ?_⟩
          intro x hx hx2
          have hxu : x = rec.url := by simpa using hx2
          obtain ⟨p, hp, hpx⟩ := List.mem_map.mp hx
          apply hv
          rw [← hrec, ← hxu, ← hpx]
          exact hV p hp
        · intro p hp
          rcases List.mem_append.mp hp with hold | hnew
          · exact List.mem_append_left _ (hV p hold)
          · rw [List.mem_singleton.mp hnew]
            dsimp only
            rw [hrec]
            exact List.mem_append_right _ (List.mem_singleton_self u)
    · exact ⟨List.nodup_nil, fun p hp => absurd hp (List.not_mem_nil p)⟩

/-! ## Claim C10 -/

/-- C10: for every successfully fetched page, the `word_matches` mapping of
its record has exactly the configured lower-cased search terms as its keys —
every configured term is present (even at count zero) and no other key
occurs; with no configured terms the mapping is empty. -/
theorem C10_word_match_keys (env : Env) (cfg : CrawlConfig) (fuel : Nat) :
    ((crawl env cfg fuel).1.records.all (fun p =>
      (dictKeys p.1.wordMatches).all (fun k => decide (k ∈ (mkCrawler cfg).searchWords)) &&
      (mkCrawler cfg).searchWords.all (fun w => decide (w ∈ dictKeys p.1.wordMatches)))) = true := by
  have key := crawlLoop_inv env (mkCrawler cfg)
    (fun s => ∀ p ∈ s.records, ∀ k,
      (k ∈ dictKeys p.1.wordMatches ↔ k ∈ (mkCrawler cfg).searchWords))
    ?_ fuel (initState (mkCrawler cfg)) ?_
  · rw [List.all_eq_true]
    intro p hp
    rw [Bool.and_eq_true, List.all_eq_true, List.all_eq_true]
    constructor
    · intro k hk
      exact decide_eq_true ((key p hp k).mp hk)
    · intro w hw
      exact decide_eq_true ((key p hp w).mpr hw)
  · intro s s' evs hstep hP
    obtain ⟨u, d, rest, hq, hb, hcases⟩ := crawlStep_cases hstep
    rcases hcases with ⟨_, hss, _⟩ | ⟨_, _, hss, _⟩ |
      ⟨_, _, ⟨cache', fevs, hf, hss, _⟩ | ⟨rec, links, cache', fevs, hf, hss, _⟩⟩
    · rw [hss]; exact hP
    · rw [hss]; exact hP
    · rw [hss]; exact hP
    · rw [hss]
      dsimp only
      intro p hp k
      rcases List.mem_append.mp hp with hold | hnew
      · exact hP p hold k
      · rw [List.mem_singleton.mp hnew]
        dsimp only
        obtain ⟨_, _, pg, _, _, _, hreq⟩ := fetchPage_some_spec hf
        rw [hreq]
        exact searchContent_keys (mkCrawler cfg) pg.text k
  · intro p hp
    exact absurd hp (List.not_mem_nil p)

/-! ## Claim C5 -/

/-- C5 (counterexample): the claim implies that between any two consecutive
dequeues there is a politeness sleep (the delay is skipped only when the
frontier is empty).  In `envC5` the URL `p2` is dequeued a second time after
being visited: that iteration hits the visited `continue`, skips the sleep,
and the non-empty frontier is popped immediately — so the trace has two
adjacent dequeues with no sleep between them. -/
theorem C5_cex : sleepSeparated (crawl envC5 cfgC5 20).2 = false := rfl

/-- C5 (amended): in one loop iteration, the politeness sleep happens iff
the iteration passed the visited and depth checks (i.e. was not cut short by
a `continue`) and the frontier is non-empty at the end of the iteration. -/
theorem C5_amended (env : Env) (c : Crawler) (s s' : CrawlState) (evs : List Ev)
    (u : String) (d : Nat) (rest : List (String × Nat))
    (hq : s.queue = (u, d) :: rest)
    (h : crawlStep env c s = some (s', evs)) :
    (Ev.slp ∈ evs ↔ (u ∉ s.visited ∧ d ≤ c.maxDepth ∧ s'.queue ≠ [])) := by
  obtain ⟨u', d', rest', hq', hb, hcases⟩ := crawlStep_cases h
  rw [hq, List.cons.injEq, Prod.mk.injEq] at hq'
  obtain ⟨⟨hu, hd⟩, hrest⟩ := hq'
  subst hu; subst hd; subst hrest
  rcases hcases with ⟨hv, hss, he⟩ | ⟨hv, hd2, hss, he⟩ |
    ⟨hv, hd2, ⟨cache', fevs, hf, hss, he⟩ | ⟨rec, links, cache', fevs, hf, hss, he⟩⟩
  · subst he
    simp [hv]
  · subst he
    have hnd : ¬(d ≤ c.maxDepth) := Nat.not_le.mpr hd2
    simp [hnd]
  · subst he
    have hfe : fevs = [Ev.att u] ∨ fevs = [Ev.att u, Ev.get u] := by
      have h2 := fetchPage_evs env c s.cache u
      rw [hf] at h2
      simpa using h2
    have hsq : s'.queue = rest := by rw [hss]
    rw [hsq]
    constructor
    · intro hmem
      refine ⟨hv, hd2, ?_⟩
      intro hrnil
      subst hrnil
      rcases hfe with hfe | hfe <;> subst hfe <;> simp at hmem
    · rintro ⟨_, _, hne⟩
      have hE : rest.isEmpty = false := by
        cases hqq : rest with
        | nil => exact absurd hqq hne
        | cons a l => rfl
      rw [hE]
      rcases hfe with hfe | hfe <;> subst hfe <;> simp
  · subst he
    have hfe : fevs = [Ev.att u] ∨ fevs = [Ev.att u, Ev.get u] := by
      have h2 := fetchPage_evs env c s.cache u
      rw [hf] at h2
      simpa using h2
    have hsq : s'.queue = rest ++ (if d < c.maxDepth then
        (links.filter (fun l => decide (l ∉ s.visited ++ [u]))).map (fun l => (l, d + 1))
        else []) := by rw [hss]
    rw [hsq]
    constructor
    · intro hmem
      refine ⟨hv, hd2, ?_⟩
      intro hqnil
      rw [hqnil] at hmem
      rcases hfe with hfe | hfe <;> subst hfe <;> simp at hmem
    · rintro ⟨_, _, hne⟩
      have hE : (rest ++ (if d < c.maxDepth then
          (links.filter (fun l => decide (l ∉ s.visited ++ [u]))).map (fun l => (l, d + 1))
          else [])).isEmpty = false := by
        cases hqq : rest ++ (if d < c.maxDepth then
            (links.filter (fun l => decide (l ∉ s.visited ++ [u]))).map (fun l => (l, d + 1))
            else []) with
        | nil => exact absurd hqq hne
        | cons a l => rfl
      rw [hE]
      rcases hfe with hfe | hfe <;> subst hfe <;> simp

/-- C5 (witness): one explicit iteration of the loop in `envW`: the fetch
fails, the frontier still holds a second entry, and the sleep happens. -/
theorem C5_amended_witness :
    (Ev.slp ∈ [Ev.deq "https://w.com/" 0, Ev.att "https://w.com/",
               Ev.get "https://w.com/", Ev.slp] ↔
      ("https://w.com/" ∉ stateW.visited ∧ 0 ≤ crawlerW.maxDepth ∧
        ({ queue := [("https://w.com/b", 0)], visited := ["https://w.com/"],
           records := [], pagesCrawled := 0, cache := [] } : CrawlState).queue ≠ [])) :=
  C5_amended envW crawlerW stateW
    { queue := [("https://w.com/b", 0)], visited := ["https://w.com/"],
      records := [], pagesCrawled := 0, cache := [] }
    [Ev.deq "https://w.com/" 0, Ev.att "https://w.com/", Ev.get "https://w.com/", Ev.slp]
    "https://w.com/" 0 [("https://w.com/b", 0)] rfl rfl

/-! ## Claim C3 -/

/-- C3 (counterexample): with the same environment and configuration, the
crawl with robots respect DISABLED issues 2 HTTP GETs while the crawl with
robots respect ENABLED issues 5: the robots denial of `/a` does not consume
the page budget, so the enabled run keeps fetching the non-HTML tail that
the disabled run never reaches.  Hence disabling robots respect does not
give at least as many fetch attempts. -/
theorem C3_cex :
    (getUrls (crawl envC3 (cfgC3 false) 20).2).length = 2 ∧
    (getUrls (crawl envC3 (cfgC3 true) 20).2).length = 5 ∧
    ¬((getUrls (crawl envC3 (cfgC3 true) 20).2).length ≤
        (getUrls (crawl envC3 (cfgC3 false) 20).2).length) := by
  have h1 : (getUrls (crawl envC3 (cfgC3 false) 20).2).length = 2 := rfl
  have h2 : (getUrls (crawl envC3 (cfgC3 true) 20).2).length = 5 := rfl
  refine ⟨h1, h2, ?_⟩
  rw [h1, h2]
  decide

/-- C3 (amended): disabling robots respect never blocks an individual
fetch: for any URL and cache state, `_fetch_page` with robots respect
disabled always issues the HTTP GET, so in particular it issues it whenever
the robots-respecting fetcher would; and the disabled gate allows whatever
the enabled gate allows.  (The run-level fetch-attempt inequality fails
because robots denials do not count toward the page budget.) -/
theorem C3_amended (env : Env) (c : Crawler) (cache : RobotsCache) (u : String) :
    Ev.get u ∈ (fetchPage env { c with respectRobots := false } cache u).2.2 ∧
    ((canFetch env { c with respectRobots := true } cache u).1 = true →
      (canFetch env { c with respectRobots := false } cache u).1 = true) := by
  constructor
  · have hcf : (canFetch env { c with respectRobots := false } cache u).1 = true := by
      simp [canFetch]
    unfold fetchPage
    simp only [hcf, Bool.not_true, Bool.false_eq_true, if_false]
    cases h2 : env.http u with
    | none => simp
    | some pg =>
      cases h3 : pg.isHtml with
      | false => simp [h3]
      | true => simp [h3]
  · intro _
    simp [canFetch]

/-- C3 (witness): the amended statement at concrete inputs — for the seed of
`envC3`, both the robots-disabled GET and the gate implication (with its
antecedent discharged) hold. -/
theorem C3_amended_witness :
    Ev.get "https://s.com/" ∈
      (fetchPage envC3 { mkCrawler (cfgC3 true) with respectRobots := false }
        [] "https://s.com/").2.2 ∧
    (canFetch envC3 { mkCrawler (cfgC3 true) with respectRobots := false }
        [] "https://s.com/").1 = true := by
  have h := C3_amended envC3 (mkCrawler (cfgC3 true)) [] "https://s.com/"
  exact ⟨h.1, h.2 (by decide)⟩

/-! ## Claim C1 -/

/-- C1 (counterexample): the claim says every URL in every page record
satisfies the Scope Filter, including the seed.  But the seed is fetched
without the filter: with seed `https://example.com/file.pdf` (whose path
ends in the excluded `.pdf` extension) the crawl produces a record for a URL
the Scope Filter rejects. -/
theorem C1_cex :
    (crawl envC1 cfgC1 10).1.records.map (fun p => p.1.url) =
      ["https://example.com/file.pdf"] ∧
    isValidUrl (mkCrawler cfgC1) "https://example.com/file.pdf" = false :=
  ⟨rfl, rfl⟩

/-- C1 (amended): every URL in every page record either is the seed URL or
satisfies the Scope Filter, and (when robots respect is enabled) was
permitted by the Robots Gate when it was fetched; the seed is fetched
without the Scope Filter being applied to it. -/
theorem C1_amended (env : Env) (cfg : CrawlConfig) (fuel : Nat) :
    ((crawl env cfg fuel).1.records.all (fun p =>
      (decide (p.1.url = (mkCrawler cfg).startUrl) || isValidUrl (mkCrawler cfg) p.1.url) &&
      robotsAllows env (mkCrawler cfg) p.1.url)) = true := by
  have key := crawlLoop_inv env (mkCrawler cfg)
    (fun s => (∀ h p, (h, p) ∈ s.cache → env.robots h = some p) ∧
      (∀ e ∈ s.queue, e.1 = (mkCrawler cfg).startUrl ∨ isValidUrl (mkCrawler cfg) e.1 = true) ∧
      (∀ p ∈ s.records,
        (p.1.url = (mkCrawler cfg).startUrl ∨ isValidUrl (mkCrawler cfg) p.1.url = true) ∧
        robotsAllows env (mkCrawler cfg) p.1.url = true))
    ?_ fuel (initState (mkCrawler cfg)) ?_
  · rw [List.all_eq_true]
    intro p hp
    obtain ⟨hurl, hrob⟩ := key.2.2 p hp
    rw [Bool.and_eq_true, Bool.or_eq_true]
    refine ⟨?_, hrob⟩
    rcases hurl with h1 | h1
    · exact Or.inl (decide_eq_true h1)
    · exact Or.inr h1
  · intro s s' evs hstep hP
    obtain ⟨hC, hQ, hR⟩ := hP
    obtain ⟨u, d, rest, hq, hb, hcases⟩ := crawlStep_cases hstep
    have hQrest : ∀ e ∈ rest, e.1 = (mkCrawler cfg).startUrl ∨
        isValidUrl (mkCrawler cfg) e.1 = true := by
      intro e he
      exact hQ e (hq ▸ List.mem_cons_of_mem _ he)
    rcases hcases with ⟨_, hss, _⟩ | ⟨_, _, hss, _⟩ |
      ⟨_, _, ⟨cache', fevs, hf, hss, _⟩ | ⟨rec, links, cache', fevs, hf, hss, _⟩⟩
    · rw [hss]; exact ⟨hC, hQrest, hR⟩
    · rw [hss]; exact ⟨hC, hQrest, hR⟩
    · rw [hss]
      dsimp only
      have hC' : ∀ h p, (h, p) ∈ cache' → env.robots h = some p := by
        have hce := fetchPage_cache env (mkCrawler cfg) s.cache u
        rw [hf] at hce
        dsimp only at hce
        rw [hce]
        exact (canFetch_eq_robotsAllows env (mkCrawler cfg) s.cache u hC).2
      exact ⟨hC', hQrest, hR⟩
    · rw [hss]
      dsimp only
      obtain ⟨hcf, hcache, pg, hpg, _, hlinks, hrec⟩ := fetchPage_some_spec hf
      have hC' : ∀ h p, (h, p) ∈ cache' → env.robots h = some p := by
        rw [hcache]
        exact (canFetch_eq_robotsAllows env (mkCrawler cfg) s.cache u hC).2
      refine ⟨hC', ?_, ?_⟩
      · intro e he
        rcases List.mem_append.mp he with hold | hfresh
        · exact hQrest e hold
        · by_cases hlt : d < (mkCrawler cfg).maxDepth
          · rw [if_pos hlt] at hfresh
            obtain ⟨l, hl, hle⟩ := List.mem_map.mp hfresh
            have hlv : l ∈ links := (List.mem_filter.mp hl).1
            rw [hlinks] at hlv
            right
            rw [← hle]
            exact extractLinks_valid hlv
          · rw [if_neg hlt] at hfresh
            exact absurd hfresh (List.not_mem_nil e)
      · intro p hp
        rcases List.mem_append.mp hp with hold | hnew
        · exact hR p hold
        · rw [List.mem_singleton.mp hnew]
          dsimp only
          have hu : rec.url = u := by rw [hrec]
          rw [hu]
          constructor
          · exact hQ (u, d) (hq ▸ List.mem_cons_self _ _)
          · have := (canFetch_eq_robotsAllows env (mkCrawler cfg) s.cache u hC).1
            rw [hcf] at this
            exact this.symm
  · refine ⟨?_, ?_, ?_⟩
    · intro h p hp
      exact absurd hp (List.not_mem_nil (h, p))
    · intro e he
      rw [List.mem_singleton.mp he]
      exact Or.inl rfl
    · intro p hp
      exact absurd hp (List.not_mem_nil p)

/-! ## Claim C4 -/

theorem deqDepths_append (a b : List Ev) :
    deqDepths (a ++ b) = deqDepths a ++ deqDepths b :=
  List.filterMap_append ..

/-- The dequeue depths of one processing iteration's events. -/
theorem deqDepths_step {u : String} {d : Nat} {fevs tail : List Ev}
    (hf : fevs = [Ev.att u] ∨ fevs = [Ev.att u, Ev.get u])
    (ht : tail = [] ∨ tail = [Ev.slp]) :
    deqDepths (Ev.deq u d :: fevs ++ tail) = [d] := by
  rcases hf with h | h <;> rcases ht with h2 | h2 <;> subst h <;> subst h2 <;> rfl

/-- Depth lists of constant depth are sorted. -/
theorem pairwise_map_const_le {l : List (String × Nat)} {k : Nat}
    (h : ∀ e ∈ l, e.2 = k) :
    List.Pairwise (· ≤ ·) (l.map (fun e => e.2)) := by
  induction l with
  | nil => exact List.Pairwise.nil
  | cons a r ih =>
    rw [List.map_cons, List.pairwise_cons]
    constructor
    · intro b hb
      obtain ⟨e, he, hbe⟩ := List.mem_map.mp hb
      rw [← hbe, h a (List.mem_cons_self a r), h e (List.mem_cons_of_mem _ he)]
    · exact ih (fun e he => h e (List.mem_cons_of_mem _ he))

/-- The queue invariant of breadth-first order: the frontier depths are
non-decreasing and spread over at most two consecutive levels; then the
dequeued depths of the whole run are non-decreasing and bounded below by any
lower bound of the frontier. -/
theorem crawlLoop_deq_sorted (env : Env) (c : Crawler) :
    ∀ (fuel : Nat) (s : CrawlState),
      List.Pairwise (· ≤ ·) (s.queue.map (fun e => e.2)) →
      (∀ a ∈ s.queue, ∀ b ∈ s.queue, a.2 ≤ b.2 + 1) →
      List.Pairwise (· ≤ ·) (deqDepths (crawlLoop env c fuel s).2) ∧
      (∀ lb, (∀ p ∈ s.queue, lb ≤ p.2) →
        ∀ x ∈ deqDepths (crawlLoop env c fuel s).2, lb ≤ x) := by
  intro fuel
  induction fuel with
  | zero =>
    intro s _ _
    constructor
    · simp [crawlLoop, deqDepths]
    · intro lb _ x hx
      simp [crawlLoop, deqDepths] at hx
  | succ n ih =>
    intro s hsort hspread
    cases hs : crawlStep env c s with
    | none =>
      rw [crawlLoop_succ_none hs]
      constructor
      · simp [deqDepths]
      · intro lb _ x hx
        simp [deqDepths] at hx
    | some pr =>
      obtain ⟨s', evs⟩ := pr
      rw [crawlLoop_succ_some hs]
      obtain ⟨u, d, rest, hq, hb, hcases⟩ := crawlStep_cases hs
      rw [hq, List.map_cons] at hsort
      have hdle : ∀ p ∈ rest, d ≤ p.2 := by
        intro p hp
        exact (List.pairwise_cons.mp hsort).1 _ (List.mem_map_of_mem _ hp)
      have hsrest : List.Pairwise (· ≤ ·) (rest.map (fun e => e.2)) :=
        (List.pairwise_cons.mp hsort).2
      have hsprest : ∀ a ∈ rest, ∀ b ∈ rest, a.2 ≤ b.2 + 1 := by
        intro a ha b hb
        exact hspread a (hq ▸ List.mem_cons_of_mem _ ha) b (hq ▸ List.mem_cons_of_mem _ hb)
      have hdmem : (u, d) ∈ s.queue := hq ▸ List.mem_cons_self _ _
      rcases hcases with ⟨_, hss, he⟩ | ⟨_, _, hss, he⟩ |
        ⟨_, _, ⟨cache', fevs, hf, hss, he⟩ | ⟨rec, links, cache', fevs, hf, hss, he⟩⟩
      · subst he
        have hq' : s'.queue = rest := by rw [hss]
        obtain ⟨ihS, ihB⟩ := ih s' (by rw [hq']; exact hsrest) (by rw [hq']; exact hsprest)
        rw [deqDepths_append]
        have hone : deqDepths [Ev.deq u d] = [d] := rfl
        rw [hone, List.singleton_append]
        constructor
        · rw [List.pairwise_cons]
          exact ⟨ihB d (by rw [hq']; exact hdle), ihS⟩
        · intro lb hlb x hx
          rcases List.mem_cons.mp hx with h1 | h1
          · subst h1; exact hlb _ hdmem
          · refine ihB lb ?_ x h1
            rw [hq']
            intro p hp
            exact hlb p (hq ▸ List.mem_cons_of_mem _ hp)
      · subst he
        have hq' : s'.queue = rest := by rw [hss]
        obtain ⟨ihS, ihB⟩ := ih s' (by rw [hq']; exact hsrest) (by rw [hq']; exact hsprest)
        rw [deqDepths_append]
        have hone : deqDepths [Ev.deq u d] = [d] := rfl
        rw [hone, List.singleton_append]
        constructor
        · rw [List.pairwise_cons]
          exact ⟨ihB d (by rw [hq']; exact hdle), ihS⟩
        · intro lb hlb x hx
          rcases List.mem_cons.mp hx with h1 | h1
          · subst h1; exact hlb _ hdmem
          · refine ihB lb ?_ x h1
            rw [hq']
            intro p hp
            exact hlb p (hq ▸ List.mem_cons_of_mem _ hp)
      · subst he
        have hfe : fevs = [Ev.att u] ∨ fevs = [Ev.att u, Ev.get u] := by
          have h2 := fetchPage_evs env c s.cache u
          rw [hf] at h2
          simpa using h2
        have hq' : s'.queue = rest := by rw [hss]
        obtain ⟨ihS, ihB⟩ := ih s' (by rw [hq']; exact hsrest) (by rw [hq']; exact hsprest)
        rw [deqDepths_append, deqDepths_step (d := d) hfe (ite_sleep_cases rest.isEmpty),
          List.singleton_append]
        constructor
        · rw [List.pairwise_cons]
          exact ⟨ihB d (by rw [hq']; exact hdle), ihS⟩
        · intro lb hlb x hx
          rcases List.mem_cons.mp hx with h1 | h1
          · subst h1; exact hlb _ hdmem
          · refine ihB lb ?_ x h1
            rw [hq']
            intro p hp
            exact hlb p (hq ▸ List.mem_cons_of_mem _ hp)
      · subst he
        have hfe : fevs = [Ev.att u] ∨ fevs = [Ev.att u, Ev.get u] := by
          have h2 := fetchPage_evs env c s.cache u
          rw [hf] at h2
          simpa using h2
        have hq' : s'.queue = rest ++ (if d < c.maxDepth then
            (links.filter (fun l => decide (l ∉ s.visited ++ [u]))).map (fun l => (l, d + 1))
            else []) := by rw [hss]
        have hfreshd : ∀ e ∈ (if d < c.maxDepth then
            (links.filter (fun l => decide (l ∉ s.visited ++ [u]))).map (fun l => (l, d + 1))
            else []), e.2 = d + 1 := by
          by_cases hlt : d < c.maxDepth
          · rw [if_pos hlt]
            intro e he
            obtain ⟨l, _, hle⟩ := List.mem_map.mp he
            rw [← hle]
          · rw [if_neg hlt]
            intro e he
            exact absurd he (List.not_mem_nil e)
        have hsort' : List.Pairwise (· ≤ ·) (s'.queue.map (fun e => e.2)) := by
          rw [hq', List.map_append, List.pairwise_append]
          refine ⟨hsrest, pairwise_map_const_le hfreshd, ?_⟩
          intro a ha b hb
          obtain ⟨ea, hea, haa⟩ := List.mem_map.mp ha
          obtain ⟨eb, heb, hbb⟩ := List.mem_map.mp hb
          rw [← haa, ← hbb, hfreshd eb heb]
          have := hspread ea (hq ▸ List.mem_cons_of_mem _ hea) (u, d) hdmem
          omega
        have hspread' : ∀ a ∈ s'.queue, ∀ b ∈ s'.queue, a.2 ≤ b.2 + 1 := by
          rw [hq']
          intro a ha b hb
          rcases List.mem_append.mp ha with ha1 | ha1 <;>
            rcases List.mem_append.mp hb with hb1 | hb1
          · exact hsprest a ha1 b hb1
          · rw [hfreshd b hb1]
            have := hspread a (hq ▸ List.mem_cons_of_mem _ ha1) (u, d) hdmem
            omega
          · rw [hfreshd a ha1]
            have := hdle b hb1
            omega
          · rw [hfreshd a ha1, hfreshd b hb1]
            omega
        have hlow : ∀ p ∈ s'.queue, d ≤ p.2 := by
          rw [hq']
          intro p hp
          rcases List.mem_append.mp hp with h1 | h1
          · exact hdle p h1
          · rw [hfreshd p h1]; omega
        obtain ⟨ihS, ihB⟩ := ih s' hsort' hspread'
        rw [deqDepths_append, deqDepths_step (d := d) hfe (ite_sleep_cases _),
          List.singleton_append]
        constructor
        · rw [List.pairwise_cons]
          exact ⟨ihB d hlow, ihS⟩
        · intro lb hlb x hx
          rcases List.mem_cons.mp hx with h1 | h1
          · subst h1; exact hlb _ hdmem
          · refine ihB lb ?_ x h1
            intro p hp
            have hld : lb ≤ d := hlb _ hdmem
            have := hlow p hp
            omega

/-- C4: traversal is strict FIFO breadth-first — the sequence of dequeued
depths along any crawl is non-decreasing, so every URL dequeued at depth `d`
is dequeued before any URL at depth `d+1`. -/
theorem C4_bfs_order (env : Env) (cfg : CrawlConfig) (fuel : Nat) :
    List.Pairwise (· ≤ ·) (deqDepths (crawl env cfg fuel).2) := by
  have key := crawlLoop_deq_sorted env (mkCrawler cfg) fuel (initState (mkCrawler cfg)) ?_ ?_
  · exact key.1
  · simp [initState]
  · intro a ha b hb
    simp only [initState, List.mem_singleton] at ha hb
    rw [ha, hb]
    omega

/-! ## Claim C8: list-level splitting lemmas -/

theorem isPref_append_self (l x : List Char) : isPref l (l ++ x) = true := by
  induction l with
  | nil => rfl
  | cons c r ih => simp [isPref, ih]

/-- Appending `c :: f` behind `r` does not change whether `pat` is a leading
segment, when `c` occurs nowhere in `pat`. -/
theorem isPref_mid {pat : List Char} (c : Char) (hc : ∀ a ∈ pat, a ≠ c) :
    ∀ (r f : List Char), isPref pat (r ++ c :: f) = isPref pat r := by
  induction pat with
  | nil => intro r f; rfl
  | cons p ps ih =>
    intro r f
    cases r with
    | nil =>
      have hp : p ≠ c := hc p (List.mem_cons_self _ _)
      simp [isPref, hp]
    | cons a rr =>
      simp only [List.cons_append, isPref, List.append_eq]
      rw [ih (fun x hx => hc x (List.mem_cons_of_mem _ hx)) rr f]

theorem takeWhile_mid {p : Char → Bool} {c : Char} (hc : p c = false) (x f : List Char) :
    (x ++ c :: f).takeWhile p = x.takeWhile p := by
  induction x with
  | nil => simp [List.takeWhile_cons, hc]
  | cons a r ih => simp [List.takeWhile_cons, ih]

theorem dropWhile_mid {p : Char → Bool} {c : Char} (hc : p c = false) (x f : List Char) :
    (x ++ c :: f).dropWhile p = x.dropWhile p ++ c :: f := by
  induction x with
  | nil => simp [List.dropWhile_cons, hc]
  | cons a r ih =>
    simp only [List.cons_append, List.dropWhile_cons]
    cases hpa : p a <;> simp [ih]

theorem splitFirst_eq_none {t : Char} :
    ∀ {l : List Char}, splitFirst t l = none ↔ t ∉ l := by
  intro l
  induction l with
  | nil => simp [splitFirst]
  | cons c r ih =>
    by_cases hct : c = t
    · subst hct
      simp [splitFirst]
    · cases hsf : splitFirst t r with
      | none =>
        have hnr : t ∉ r := ih.mp hsf
        constructor
        · intro _ hm
          rcases List.mem_cons.mp hm with h1 | h1
          · exact hct h1.symm
          · exact hnr h1
        · intro _
          simp only [splitFirst, if_neg hct, hsf]
      | some ab =>
        obtain ⟨a, b⟩ := ab
        constructor
        · intro hcontra
          simp only [splitFirst, if_neg hct, hsf] at hcontra
          cases hcontra
        · intro hnm
          exfalso
          apply hnm
          apply List.mem_cons_of_mem
          by_contra hnr
          rw [ih.mpr hnr] at hsf
          cases hsf

theorem splitFirst_eq_some {t : Char} :
    ∀ {l a b : List Char}, splitFirst t l = some (a, b) → l = a ++ t :: b ∧ t ∉ a := by
  intro l
  induction l with
  | nil => intro a b h; cases h
  | cons c r ih =>
    intro a b h
    simp only [splitFirst] at h
    by_cases hct : c = t
    · subst hct
      rw [if_pos rfl, Option.some.injEq, Prod.mk.injEq] at h
      obtain ⟨ha, hb⟩ := h
      subst ha; subst hb
      exact ⟨rfl, List.not_mem_nil _⟩
    · rw [if_neg hct] at h
      cases hsf : splitFirst t r with
      | none => rw [hsf] at h; cases h
      | some ab =>
        obtain ⟨a2, b2⟩ := ab
        rw [hsf] at h
        rw [Option.some.injEq, Prod.mk.injEq] at h
        obtain ⟨ha, hb⟩ := h
        obtain ⟨hl, hna⟩ := ih hsf
        subst hb
        rw [← ha]
        constructor
        · rw [List.cons_append, ← hl]
        · intro hm
          rcases List.mem_cons.mp hm with h1 | h1
          · exact hct h1.symm
          · exact hna h1

theorem splitFirst_append_self (t : Char) :
    ∀ {p : List Char}, t ∉ p → ∀ (f : List Char),
      splitFirst t (p ++ t :: f) = some (p, f) := by
  intro p
  induction p with
  | nil => intro _ f; simp [splitFirst]
  | cons a r ih =>
    intro h f
    have hat : ¬(a = t) := fun he => h (List.mem_cons.mpr (Or.inl he.symm))
    simp only [List.cons_append, splitFirst, if_neg hat, List.append_eq]
    rw [ih (fun hm => h (List.mem_cons_of_mem _ hm)) f]

theorem splitFirst_append_of_none {t : Char} :
    ∀ {a : List Char}, t ∉ a → ∀ {b : List Char},
      splitFirst t b = none → splitFirst t (a ++ b) = none := by
  intro a
  induction a with
  | nil => intro _ b hb; simpa using hb
  | cons c r ih =>
    intro h b hb
    have hct : ¬(c = t) := fun he => h (List.mem_cons.mpr (Or.inl he.symm))
    simp only [List.cons_append, splitFirst, if_neg hct, List.append_eq]
    rw [ih (fun hm => h (List.mem_cons_of_mem _ hm)) hb]

theorem splitFirst_append_of_some {t : Char} :
    ∀ {a : List Char}, t ∉ a → ∀ {b x y : List Char},
      splitFirst t b = some (x, y) → splitFirst t (a ++ b) = some (a ++ x, y) := by
  intro a
  induction a with
  | nil => intro _ b x y hb; simpa using hb
  | cons c r ih =>
    intro h b x y hb
    have hct : ¬(c = t) := fun he => h (List.mem_cons.mpr (Or.inl he.symm))
    simp only [List.cons_append, splitFirst, if_neg hct, List.append_eq]
    rw [ih (fun hm => h (List.mem_cons_of_mem _ hm)) hb]

theorem isPref_slash2 {r : List Char} (h : isPref ['/', '/'] r = true) :
    ∃ r2, r = '/' :: '/' :: r2 := by
  cases r with
  | nil => cases h
  | cons a rr =>
    cases rr with
    | nil => simp [isPref] at h
    | cons b r2 =>
      simp only [isPref, Bool.and_eq_true, decide_eq_true_eq] at h
      obtain ⟨h1, h2, _⟩ := h
      exact ⟨r2, by rw [← h1, ← h2]⟩

/-! ## Claim C8: parsing-stage lemmas -/

theorem splitScheme_of_none {v : List Char} (h : splitFirst ':' v = none) :
    splitScheme v = ([], v) := by
  unfold splitScheme
  rw [h]

theorem splitScheme_of_some {v a b : List Char} (h : splitFirst ':' v = some (a, b)) :
    splitScheme v =
      if !a.isEmpty && asciiAlpha (a.headD ' ') && a.all schemeChar
      then (lowerStr a, b) else ([], v) := by
  unfold splitScheme
  rw [h]

theorem splitScheme_snd_mem {v : List Char} {c : Char}
    (h : c ∈ (splitScheme v).2) : c ∈ v := by
  cases hsf : splitFirst ':' v with
  | none => rw [splitScheme_of_none hsf] at h; exact h
  | some ab =>
    obtain ⟨a, b⟩ := ab
    rw [splitScheme_of_some hsf] at h
    by_cases hg : (!a.isEmpty && asciiAlpha (a.headD ' ') && a.all schemeChar) = true
    · rw [if_pos hg] at h
      obtain ⟨hl, _⟩ := splitFirst_eq_some hsf
      rw [hl]
      exact List.mem_append_right _ (List.mem_cons_of_mem _ h)
    · rw [if_neg hg] at h
      exact h

theorem splitScheme_hash (v f : List Char) :
    splitScheme (v ++ '#' :: f) = ((splitScheme v).1, (splitScheme v).2 ++ '#' :: f) := by
  cases hsf : splitFirst ':' v with
  | none =>
    have hnv : ':' ∉ v := splitFirst_eq_none.mp hsf
    rw [splitScheme_of_none hsf]
    cases hsf2 : splitFirst ':' ('#' :: f) with
    | none =>
      rw [splitScheme_of_none (splitFirst_append_of_none hnv hsf2)]
    | some xy =>
      obtain ⟨x, y⟩ := xy
      have h2 := splitFirst_append_of_some hnv hsf2
      rw [splitScheme_of_some h2]
      have hx : '#' ∈ v ++ x := by
        obtain ⟨hdec, _⟩ := splitFirst_eq_some hsf2
        cases x with
        | nil => simp at hdec
        | cons x0 x' =>
          have hx0 : x0 = '#' := by
            have := congrArg (fun l => l.headD ' ') hdec
            simpa using this.symm
          apply List.mem_append_right
          rw [hx0]
          exact List.mem_cons_self _ _
      have hguard : (!(v ++ x).isEmpty && asciiAlpha ((v ++ x).headD ' ') &&
          (v ++ x).all schemeChar) = false := by
        cases hbb : (v ++ x).all schemeChar with
        | false => rw [Bool.and_false]
        | true =>
          have := List.all_eq_true.mp hbb '#' hx
          exact absurd this (by decide)
      rw [if_neg (by rw [hguard]; exact Bool.false_ne_true)]
  | some ab =>
    obtain ⟨a, b⟩ := ab
    obtain ⟨hdec, hna⟩ := splitFirst_eq_some hsf
    have h2 : splitFirst ':' (v ++ '#' :: f) = some (a, b ++ '#' :: f) := by
      rw [hdec, List.append_assoc, List.cons_append]
      exact splitFirst_append_self ':' hna _
    rw [splitScheme_of_some h2, splitScheme_of_some hsf]
    by_cases hg : (!a.isEmpty && asciiAlpha (a.headD ' ') && a.all schemeChar) = true
    · rw [if_pos hg, if_pos hg]
    · rw [if_neg hg, if_neg hg]

theorem tailSplit_hash {w : List Char} (hw : '#' ∉ w) (f : List Char) :
    (tailSplit (w ++ '#' :: f)).1 = (tailSplit w).1 ∧
    (tailSplit (w ++ '#' :: f)).2.1 = (tailSplit w).2.1 := by
  unfold tailSplit
  rw [splitFirst_append_self '#' hw f, splitFirst_eq_none.mpr hw]
  exact ⟨rfl, rfl⟩

theorem tailSplit_frag_nil {w : List Char} (hw : '#' ∉ w) :
    (tailSplit w).2.2 = [] := by
  unfold tailSplit
  rw [splitFirst_eq_none.mpr hw]

theorem urlsplitCore_of_slash2 {l r2 : List Char}
    (h : (splitScheme l).2 = '/' :: '/' :: r2) :
    urlsplitCore l =
      ⟨(splitScheme l).1, r2.takeWhile netlocChar,
       (tailSplit (r2.dropWhile netlocChar)).1,
       (tailSplit (r2.dropWhile netlocChar)).2.1,
       (tailSplit (r2.dropWhile netlocChar)).2.2⟩ := by
  unfold urlsplitCore
  dsimp only
  rw [h]
  rfl

theorem urlsplitCore_of_not_slash {l : List Char}
    (h : isPref ['/', '/'] (splitScheme l).2 = false) :
    urlsplitCore l =
      ⟨(splitScheme l).1, [],
       (tailSplit (splitScheme l).2).1,
       (tailSplit (splitScheme l).2).2.1,
       (tailSplit (splitScheme l).2).2.2⟩ := by
  unfold urlsplitCore
  dsimp only
  rw [h]
  rfl

theorem urlsplitCore_hash {v : List Char} (hv : '#' ∉ v) (f : List Char) :
    (urlsplitCore (v ++ '#' :: f)).scheme = (urlsplitCore v).scheme ∧
    (urlsplitCore (v ++ '#' :: f)).netloc = (urlsplitCore v).netloc ∧
    (urlsplitCore (v ++ '#' :: f)).path = (urlsplitCore v).path ∧
    (urlsplitCore (v ++ '#' :: f)).query = (urlsplitCore v).query := by
  have hr : '#' ∉ (splitScheme v).2 := fun hc => hv (splitScheme_snd_mem hc)
  have hsh := splitScheme_hash v f
  cases hnl : isPref ['/', '/'] (splitScheme v).2 with
  | true =>
    obtain ⟨r2, hr2⟩ := isPref_slash2 hnl
    have hr2h : '#' ∉ r2 := fun hc => hr (by
      rw [hr2]
      exact List.mem_cons_of_mem _ (List.mem_cons_of_mem _ hc))
    have h1 : (splitScheme (v ++ '#' :: f)).2 = '/' :: '/' :: (r2 ++ '#' :: f) := by
      rw [hsh]
      dsimp only
      rw [hr2]
      rfl
    have hwh : '#' ∉ r2.dropWhile netlocChar :=
      fun hc => hr2h ((List.dropWhile_sublist _).mem hc)
    rw [urlsplitCore_of_slash2 h1, urlsplitCore_of_slash2 hr2]
    dsimp only
    refine ⟨?_, ?_, ?_, ?_⟩
    · rw [hsh]
    · exact takeWhile_mid (by decide) r2 f
    · rw [dropWhile_mid (by decide) r2 f]
      exact (tailSplit_hash hwh f).1
    · rw [dropWhile_mid (by decide) r2 f]
      exact (tailSplit_hash hwh f).2
  | false =>
    have h1 : isPref ['/', '/'] ((splitScheme (v ++ '#' :: f)).2) = false := by
      rw [hsh]
      dsimp only
      rw [isPref_mid '#' (by decide) _ f]
      exact hnl
    rw [urlsplitCore_of_not_slash h1, urlsplitCore_of_not_slash hnl]
    dsimp only
    have h2 : (splitScheme (v ++ '#' :: f)).2 = (splitScheme v).2 ++ '#' :: f := by
      rw [hsh]
    refine ⟨by rw [hsh], rfl, ?_, ?_⟩
    · rw [h2]
      exact (tailSplit_hash hr f).1
    · rw [h2]
      exact (tailSplit_hash hr f).2

/-! ## Claim C8: preprocessing lemmas -/

theorem preClean_http (z : List Char) :
    preClean (httpPre ++ z) = httpPre ++ z.filter keepChar := by
  unfold preClean
  have h1 : (httpPre ++ z).dropWhile c0Space = httpPre ++ z := by
    rw [show httpPre ++ z = 'h' :: (['t', 't', 'p', ':', '/', '/'] ++ z) from rfl,
      List.dropWhile_cons, if_neg (by decide : ¬(c0Space 'h' = true))]
  rw [h1, List.filter_append,
    show List.filter keepChar httpPre = httpPre from by decide]

theorem preClean_https (z : List Char) :
    preClean (httpsPre ++ z) = httpsPre ++ z.filter keepChar := by
  unfold preClean
  have h1 : (httpsPre ++ z).dropWhile c0Space = httpsPre ++ z := by
    rw [show httpsPre ++ z = 'h' :: (['t', 't', 'p', 's', ':', '/', '/'] ++ z) from rfl,
      List.dropWhile_cons, if_neg (by decide : ¬(c0Space 'h' = true))]
  rw [h1, List.filter_append,
    show List.filter keepChar httpsPre = httpsPre from by decide]

theorem preClean_hash (v f : List Char) :
    preClean (v ++ '#' :: f) = preClean v ++ '#' :: f.filter keepChar := by
  unfold preClean
  rw [dropWhile_mid (by decide : c0Space '#' = false), List.filter_append]
  congr 1

theorem noHash_preClean {v : List Char} (hv : '#' ∉ v) : '#' ∉ preClean v := by
  intro hm
  unfold preClean at hm
  exact hv ((List.dropWhile_sublist _).mem (List.mem_of_mem_filter hm))

/-! ## Claim C8: the four normalizer properties -/

theorem withScheme_hash (u f : List Char) :
    withScheme (u ++ '#' :: f) = withScheme u ++ '#' :: f := by
  unfold withScheme
  rw [isPref_mid '#' (by decide : ∀ a ∈ httpPre, a ≠ '#') u f,
      isPref_mid '#' (by decide : ∀ a ∈ httpsPre, a ≠ '#') u f]
  by_cases hp : (isPref httpPre u || isPref httpsPre u) = true
  · rw [if_pos hp, if_pos hp]
  · rw [if_neg hp, if_neg hp, List.append_assoc]

theorem noHash_withScheme {u : List Char} (hu : '#' ∉ u) : '#' ∉ withScheme u := by
  unfold withScheme
  by_cases hp : (isPref httpPre u || isPref httpsPre u) = true
  · rw [if_pos hp]; exact hu
  · rw [if_neg hp]
    intro hm
    rcases List.mem_append.mp hm with h1 | h1
    · exact absurd h1 (by decide)
    · exact hu h1

/-- Stripping a trailing fragment commutes with the whole normalizer
pipeline: appending `#f` to a fragment-free URL leaves every component
except the (discarded) fragment unchanged. -/
theorem normalizeL_hash {u : List Char} (hu : '#' ∉ u) (f : List Char) :
    normalizeL (u ++ '#' :: f) = normalizeL u := by
  unfold normalizeL urlparseL urlsplitL
  dsimp only
  rw [withScheme_hash u f, preClean_hash (withScheme u) f]
  have hvh : '#' ∉ preClean (withScheme u) := noHash_preClean (noHash_withScheme hu)
  obtain ⟨hs, hn, hp, hq⟩ := urlsplitCore_hash hvh (f.filter keepChar)
  rw [hs, hn, hp, hq]

theorem hostOk_netloc {h : List Char} (hok : hostOk h = true) :
    ∀ c ∈ h, netlocChar c = true := by
  intro c hc
  have hb := List.all_eq_true.mp hok c hc
  rw [Bool.and_eq_true] at hb
  exact hb.1

theorem hostOk_keep {h : List Char} (hok : hostOk h = true) :
    ∀ c ∈ h, keepChar c = true := by
  intro c hc
  have hb := List.all_eq_true.mp hok c hc
  rw [Bool.and_eq_true] at hb
  exact hb.2

theorem urlsplitCore_http (x : List Char) :
    urlsplitCore (httpPre ++ x) =
      ⟨"http".data, x.takeWhile netlocChar,
       (tailSplit (x.dropWhile netlocChar)).1,
       (tailSplit (x.dropWhile netlocChar)).2.1,
       (tailSplit (x.dropWhile netlocChar)).2.2⟩ := by
  have h : splitFirst ':' (httpPre ++ x) = some (['h', 't', 't', 'p'], '/' :: '/' :: x) :=
    splitFirst_append_self ':'
      (show (':' : Char) ∉ ['h', 't', 't', 'p'] by decide) ('/' :: '/' :: x)
  have hsp : splitScheme (httpPre ++ x) = ("http".data, '/' :: '/' :: x) := by
    rw [splitScheme_of_some h]
    rfl
  rw [urlsplitCore_of_slash2 (show (splitScheme (httpPre ++ x)).2 = '/' :: '/' :: x by
    rw [hsp]), hsp]

theorem urlsplitCore_https (x : List Char) :
    urlsplitCore (httpsPre ++ x) =
      ⟨"https".data, x.takeWhile netlocChar,
       (tailSplit (x.dropWhile netlocChar)).1,
       (tailSplit (x.dropWhile netlocChar)).2.1,
       (tailSplit (x.dropWhile netlocChar)).2.2⟩ := by
  have h : splitFirst ':' (httpsPre ++ x) = some (['h', 't', 't', 'p', 's'], '/' :: '/' :: x) :=
    splitFirst_append_self ':'
      (show (':' : Char) ∉ ['h', 't', 't', 'p', 's'] by decide) ('/' :: '/' :: x)
  have hsp : splitScheme (httpsPre ++ x) = ("https".data, '/' :: '/' :: x) := by
    rw [splitScheme_of_some h]
    rfl
  rw [urlsplitCore_of_slash2 (show (splitScheme (httpsPre ++ x)).2 = '/' :: '/' :: x by
    rw [hsp]), hsp]

theorem withScheme_http (z : List Char) :
    withScheme (httpPre ++ z) = httpPre ++ z := by
  unfold withScheme
  have h : isPref httpPre (httpPre ++ z) = true := isPref_append_self _ _
  rw [h, Bool.true_or, if_pos rfl]

theorem withScheme_https (z : List Char) :
    withScheme (httpsPre ++ z) = httpsPre ++ z := by
  unfold withScheme
  have h : isPref httpsPre (httpsPre ++ z) = true := isPref_append_self _ _
  rw [h, Bool.or_true, if_pos rfl]

/-- Full evaluation of the normalizer on `http://` + host + tail. -/
theorem normalizeL_decomp_http (hst r : List Char) (hok : hostOk hst = true) :
    normalizeL (httpPre ++ hst ++ r) =
      urlunparseL ⟨"http".data,
        lowerStr (hst ++ (r.filter keepChar).takeWhile netlocChar),
        (if (tailSplit ((r.filter keepChar).dropWhile netlocChar)).1.contains ';'
         then splitParams (tailSplit ((r.filter keepChar).dropWhile netlocChar)).1
         else ((tailSplit ((r.filter keepChar).dropWhile netlocChar)).1, [])).1,
        (if (tailSplit ((r.filter keepChar).dropWhile netlocChar)).1.contains ';'
         then splitParams (tailSplit ((r.filter keepChar).dropWhile netlocChar)).1
         else ((tailSplit ((r.filter keepChar).dropWhile netlocChar)).1, [])).2,
        (tailSplit ((r.filter keepChar).dropWhile netlocChar)).2.1,
        []⟩ := by
  have hws : withScheme (httpPre ++ hst ++ r) = httpPre ++ hst ++ r := by
    rw [List.append_assoc]
    exact withScheme_http _
  have hpc : preClean (httpPre ++ hst ++ r) = httpPre ++ (hst ++ r.filter keepChar) := by
    rw [List.append_assoc, preClean_http, List.filter_append,
        List.filter_eq_self.mpr (hostOk_keep hok)]
  unfold normalizeL urlparseL urlsplitL
  dsimp only
  rw [hws, hpc, urlsplitCore_http]
  dsimp only
  rw [List.takeWhile_append_of_pos (hostOk_netloc hok),
      List.dropWhile_append_of_pos (hostOk_netloc hok)]

/-- Full evaluation of the normalizer on `https://` + host + tail. -/
theorem normalizeL_decomp_https (hst r : List Char) (hok : hostOk hst = true) :
    normalizeL (httpsPre ++ hst ++ r) =
      urlunparseL ⟨"https".data,
        lowerStr (hst ++ (r.filter keepChar).takeWhile netlocChar),
        (if (tailSplit ((r.filter keepChar).dropWhile netlocChar)).1.contains ';'
         then splitParams (tailSplit ((r.filter keepChar).dropWhile netlocChar)).1
         else ((tailSplit ((r.filter keepChar).dropWhile netlocChar)).1, [])).1,
        (if (tailSplit ((r.filter keepChar).dropWhile netlocChar)).1.contains ';'
         then splitParams (tailSplit ((r.filter keepChar).dropWhile netlocChar)).1
         else ((tailSplit ((r.filter keepChar).dropWhile netlocChar)).1, [])).2,
        (tailSplit ((r.filter keepChar).dropWhile netlocChar)).2.1,
        []⟩ := by
  have hws : withScheme (httpsPre ++ hst ++ r) = httpsPre ++ hst ++ r := by
    rw [List.append_assoc]
    exact withScheme_https _
  have hpc : preClean (httpsPre ++ hst ++ r) = httpsPre ++ (hst ++ r.filter keepChar) := by
    rw [List.append_assoc, preClean_https, List.filter_append,
        List.filter_eq_self.mpr (hostOk_keep hok)]
  unfold normalizeL urlparseL urlsplitL
  dsimp only
  rw [hws, hpc, urlsplitCore_https]
  dsimp only
  rw [List.takeWhile_append_of_pos (hostOk_netloc hok),
      List.dropWhile_append_of_pos (hostOk_netloc hok)]

/-- Case differences confined to the host produce identical canonical
strings. -/
theorem normalizeL_hostCase {pre h1 h2 : List Char} (r : List Char)
    (hpre : pre = httpPre ∨ pre = httpsPre)
    (h1ok : hostOk h1 = true) (h2ok : hostOk h2 = true)
    (hlow : lowerStr h1 = lowerStr h2) :
    normalizeL (pre ++ h1 ++ r) = normalizeL (pre ++ h2 ++ r) := by
  have hl2 : lowerStr (h1 ++ (r.filter keepChar).takeWhile netlocChar) =
      lowerStr (h2 ++ (r.filter keepChar).takeWhile netlocChar) := by
    unfold lowerStr
    unfold lowerStr at hlow
    rw [List.map_append, List.map_append, hlow]
  rcases hpre with hp | hp <;> subst hp
  · rw [normalizeL_decomp_http h1 r h1ok, normalizeL_decomp_http h2 r h2ok, hl2]
  · rw [normalizeL_decomp_https h1 r h1ok, normalizeL_decomp_https h2 r h2ok, hl2]

theorem splitParams_slash (t : List Char) :
    ∃ r, (splitParams ('/' :: t)).1 = '/' :: r := by
  cases hsl : splitLast '/' t with
  | some ab =>
    obtain ⟨a, b⟩ := ab
    have h1 : splitLast '/' ('/' :: t) = some ('/' :: a, b) := by
      simp only [splitLast, hsl]
    cases hsf : splitFirst ';' b with
    | some xy =>
      obtain ⟨x, y⟩ := xy
      refine ⟨a ++ '/' :: x, ?_⟩
      simp only [splitParams, h1, hsf, List.cons_append]
    | none =>
      refine ⟨t, ?_⟩
      simp only [splitParams, h1, hsf]
  | none =>
    have h1 : splitLast '/' ('/' :: t) = some ([], t) := by
      simp only [splitLast, hsl]
      simp
    cases hsf : splitFirst ';' t with
    | some xy =>
      obtain ⟨x, y⟩ := xy
      refine ⟨x, ?_⟩
      simp only [splitParams, h1, hsf, List.nil_append]
    | none =>
      refine ⟨t, ?_⟩
      simp only [splitParams, h1, hsf]

/-- The path-plus-params string rebuilt by `urlunparse` from a `/`-led (or
empty) path is itself `/`-led (or empty). -/
theorem joined_headed {x : List Char} (hh : x = [] ∨ ∃ t, x = '/' :: t) :
    (if !(if x.contains ';' then splitParams x else (x, [])).2.isEmpty
     then (if x.contains ';' then splitParams x else (x, [])).1 ++ ';' ::
          (if x.contains ';' then splitParams x else (x, [])).2
     else (if x.contains ';' then splitParams x else (x, [])).1) = [] ∨
    ∃ t, (if !(if x.contains ';' then splitParams x else (x, [])).2.isEmpty
     then (if x.contains ';' then splitParams x else (x, [])).1 ++ ';' ::
          (if x.contains ';' then splitParams x else (x, [])).2
     else (if x.contains ';' then splitParams x else (x, [])).1) = '/' :: t := by
  rcases hh with h | ⟨t, h⟩ <;> subst h
  · left; rfl
  · right
    by_cases hc : (('/' :: t).contains ';') = true
    · obtain ⟨r, hr⟩ := splitParams_slash t
      rw [if_pos hc]
      by_cases hE : ((splitParams ('/' :: t)).2.isEmpty) = true
      · rw [hE, Bool.not_true, if_neg (show ¬ ((false : Bool) = true) by decide), hr]
        exact ⟨r, rfl⟩
      · have hE' : (splitParams ('/' :: t)).2.isEmpty = false := by
          cases h2 : (splitParams ('/' :: t)).2.isEmpty
          · rfl
          · exact absurd h2 hE
        rw [hE', Bool.not_false, if_pos rfl, hr]
        exact ⟨r ++ ';' :: (splitParams ('/' :: t)).2, rfl⟩
    · rw [if_neg hc]
      exact ⟨t, rfl⟩

/-- Symbolic evaluation of `urlunsplit` for a non-empty scheme and netloc,
a `/`-led (or empty) path, and no fragment. -/
theorem urlunsplitL_form (sch nl u0 q : List Char)
    (hsch : sch ≠ []) (hnl : nl ≠ [])
    (hu0 : u0 = [] ∨ ∃ t, u0 = '/' :: t) :
    urlunsplitL sch nl u0 q [] =
      sch ++ ':' :: '/' :: '/' :: ((nl ++ u0) ++ (if !q.isEmpty then '?' :: q else [])) := by
  obtain ⟨c, nl', rfl⟩ : ∃ c u, nl = c :: u := by
    cases nl with
    | nil => exact absurd rfl hnl
    | cons c u => exact ⟨c, u, rfl⟩
  obtain ⟨d, sch', rfl⟩ : ∃ d u, sch = d :: u := by
    cases sch with
    | nil => exact absurd rfl hsch
    | cons d u => exact ⟨d, u, rfl⟩
  unfold urlunsplitL
  dsimp only
  have hinner : (if !u0.isEmpty && !isPref ['/'] u0 then '/' :: u0 else u0) = u0 := by
    rcases hu0 with h | ⟨t, h⟩ <;> subst h <;> rfl
  rw [hinner]
  have hc1 : (!(c :: nl').isEmpty ||
      (!(d :: sch').isEmpty && usesNetloc.contains (d :: sch') && !isPref ['/', '/'] u0)) =
      true := by
    simp
  rw [hc1, if_pos rfl]
  cases q with
  | nil => simp
  | cons a qt => simp [List.append_assoc]

/-- Symbolic evaluation of the unparse stage of the normalizer on a
fragment-free tail that is a fixpoint of reassembly. -/
theorem unparse_core (nl p sch : List Char) (hnl : nl ≠ []) (hsch : sch ≠ [])
    (hh : p = [] ∨ ∃ t, p = '/' :: t) (hnohash : '#' ∉ p)
    (hreass : pqReassemble p = p) :
    urlunsplitL sch nl
      (if !(if (tailSplit p).1.contains ';' then splitParams (tailSplit p).1
            else ((tailSplit p).1, [])).2.isEmpty
       then (if (tailSplit p).1.contains ';' then splitParams (tailSplit p).1
             else ((tailSplit p).1, [])).1 ++ ';' ::
            (if (tailSplit p).1.contains ';' then splitParams (tailSplit p).1
             else ((tailSplit p).1, [])).2
       else (if (tailSplit p).1.contains ';' then splitParams (tailSplit p).1
             else ((tailSplit p).1, [])).1)
      (tailSplit p).2.1 [] =
    sch ++ ':' :: '/' :: '/' :: (nl ++ p) := by
  have hfs : splitFirst '#' p = none := splitFirst_eq_none.mpr hnohash
  cases hq : splitFirst '?' p with
  | none =>
    have hts : tailSplit p = (p, [], []) := by
      simp only [tailSplit, hfs, hq]
    rw [hts]
    rw [urlunsplitL_form sch nl _ [] hsch hnl (joined_headed hh)]
    have hpq : pqReassemble p =
        (if !(if p.contains ';' then splitParams p else (p, [])).2.isEmpty
         then (if p.contains ';' then splitParams p else (p, [])).1 ++ ';' ::
              (if p.contains ';' then splitParams p else (p, [])).2
         else (if p.contains ';' then splitParams p else (p, [])).1) := by
      simp only [pqReassemble, hq]
      simp
    rw [← hpq, hreass]
    simp
  | some pq =>
    obtain ⟨pa, qq⟩ := pq
    have hts : tailSplit p = (pa, qq, []) := by
      simp only [tailSplit, hfs, hq]
    obtain ⟨hpshape, -⟩ := splitFirst_eq_some hq
    have hha : pa = [] ∨ ∃ t, pa = '/' :: t := by
      rcases hh with h | ⟨t, h⟩
      · rw [h] at hpshape
        exact absurd hpshape (by simp)
      · rw [h] at hpshape
        cases pa with
        | nil => simp at hpshape
        | cons c r =>
          right
          rw [List.cons_append] at hpshape
          injection hpshape with h1 h2
          exact ⟨r, by rw [← h1]⟩
    rw [hts]
    rw [urlunsplitL_form sch nl _ qq hsch hnl (joined_headed hha)]
    have hpq : pqReassemble p =
        (if !(if pa.contains ';' then splitParams pa else (pa, [])).2.isEmpty
         then (if pa.contains ';' then splitParams pa else (pa, [])).1 ++ ';' ::
              (if pa.contains ';' then splitParams pa else (pa, [])).2
         else (if pa.contains ';' then splitParams pa else (pa, [])).1) ++
        (if !qq.isEmpty then '?' :: qq else []) := by
      cases hE : qq.isEmpty with
      | true =>
        simp only [pqReassemble, hq]
        rw [hE]
        simp
      | false =>
        simp only [pqReassemble, hq]
        rw [hE]
        simp
    rw [List.append_assoc, ← hpq, hreass]

/-- When the input already carries an `http://` or `https://` prefix, a
well-formed host, and a canonical tail, the normalizer only lower-cases the
host: scheme, path, params and query come back verbatim. -/
theorem normalizeL_untouched {pre sch : List Char} (hst p : List Char)
    (hsp : pre = httpPre ∧ sch = "http".data ∨ pre = httpsPre ∧ sch = "https".data)
    (hok : hostOk hst = true) (hne : hst ≠ []) (htl : tailOk p = true) :
    normalizeL (pre ++ hst ++ p) = pre ++ lowerStr hst ++ p := by
  have htl' := htl
  unfold tailOk at htl'
  rw [Bool.and_eq_true, Bool.and_eq_true] at htl'
  obtain ⟨⟨hhead, hchars⟩, hre⟩ := htl'
  have hreass : pqReassemble p = p := eq_of_beq hre
  have hkeep : ∀ c ∈ p, keepChar c = true := by
    intro c hc
    have hb := List.all_eq_true.mp hchars c hc
    rw [Bool.and_eq_true] at hb
    exact hb.2
  have hnohash : '#' ∉ p := by
    intro hm
    have hb := List.all_eq_true.mp hchars '#' hm
    rw [Bool.and_eq_true] at hb
    have := hb.1
    simp at this
  have hh : p = [] ∨ ∃ t, p = '/' :: t := by
    rw [Bool.or_eq_true] at hhead
    rcases hhead with h | h
    · exact Or.inl (List.isEmpty_iff.mp h)
    · right
      cases p with
      | nil => exact absurd h (by decide)
      | cons c t =>
        refine ⟨t, ?_⟩
        unfold isPref at h
        rw [Bool.and_eq_true] at h
        have hc := of_decide_eq_true h.1
        rw [← hc]
  have hfp : p.filter keepChar = p := List.filter_eq_self.mpr hkeep
  have htw : p.takeWhile netlocChar = [] := by
    rcases hh with h | ⟨t, h⟩ <;> subst h
    · rfl
    · exact List.takeWhile_cons_of_neg (by decide)
  have hdw : p.dropWhile netlocChar = p := by
    rcases hh with h | ⟨t, h⟩ <;> subst h
    · rfl
    · exact List.dropWhile_cons_of_neg (by decide)
  have hlow_ne : lowerStr hst ≠ [] := by
    unfold lowerStr
    intro hx
    exact hne (List.map_eq_nil_iff.mp hx)
  rcases hsp with ⟨hpre, hsch⟩ | ⟨hpre, hsch⟩ <;> subst hpre <;> subst hsch
  · rw [normalizeL_decomp_http hst p hok, hfp, htw, hdw, List.append_nil]
    unfold urlunparseL
    dsimp only
    rw [unparse_core (lowerStr hst) p "http".data hlow_ne (by decide) hh hnohash hreass]
    rw [List.append_assoc]
    rfl
  · rw [normalizeL_decomp_https hst p hok, hfp, htw, hdw, List.append_nil]
    unfold urlunparseL
    dsimp only
    rw [unparse_core (lowerStr hst) p "https".data hlow_ne (by decide) hh hnohash hreass]
    rw [List.append_assoc]
    rfl

/-- A URL without an `http://` or `https://` prefix normalizes exactly as
the same string with `https://` prepended. -/
theorem normalizeL_prepend {s : List Char} (h1 : isPref httpPre s = false)
    (h2 : isPref httpsPre s = false) :
    normalizeL s = normalizeL (httpsPre ++ s) := by
  have hws : withScheme s = httpsPre ++ s := by
    unfold withScheme
    rw [h1, h2]
    rfl
  unfold normalizeL
  rw [hws, withScheme_https s]

/-- C8: the URL normalizer is invariant under letter-case changes confined
to the host component and under the presence or absence of a trailing
fragment; on a schemed URL with a well-formed host and canonical tail it
leaves path, params and query untouched (only lower-casing the host); and a
URL with no `http://`/`https://` prefix normalizes exactly as the same
string with `https://` prepended. -/
theorem C8_normalizer :
    (∀ (pre h1 h2 r : List Char), (pre = httpPre ∨ pre = httpsPre) →
      hostOk h1 = true → hostOk h2 = true → lowerStr h1 = lowerStr h2 →
      normalizeUrl ⟨pre ++ h1 ++ r⟩ = normalizeUrl ⟨pre ++ h2 ++ r⟩) ∧
    (∀ (u f : List Char), '#' ∉ u →
      normalizeUrl ⟨u ++ '#' :: f⟩ = normalizeUrl ⟨u⟩) ∧
    (∀ (pre sch hst p : List Char),
      (pre = httpPre ∧ sch = "http".data ∨ pre = httpsPre ∧ sch = "https".data) →
      hostOk hst = true → hst ≠ [] → tailOk p = true →
      normalizeUrl ⟨pre ++ hst ++ p⟩ = ⟨pre ++ lowerStr hst ++ p⟩) ∧
    (∀ (s : List Char), isPref httpPre s = false → isPref httpsPre s = false →
      normalizeUrl ⟨s⟩ = normalizeUrl ⟨httpsPre ++ s⟩) := by
  refine ⟨?_, ?_, ?_, ?_⟩
  · intro pre h1 h2 r hpre h1ok h2ok hlow
    exact congrArg String.mk (normalizeL_hostCase r hpre h1ok h2ok hlow)
  · intro u f hu
    exact congrArg String.mk (normalizeL_hash hu f)
  · intro pre sch hst p hsp hok hne htl
    exact congrArg String.mk (normalizeL_untouched hst p hsp hok hne htl)
  · intro s hs1 hs2
    exact congrArg String.mk (normalizeL_prepend hs1 hs2)

/-- Concrete instances of the four C8 properties: host case-insensitivity,
fragment stripping, untouched tail, and scheme prepending, each on explicit
strings. -/
theorem C8_witness :
    (normalizeUrl ⟨httpPre ++ "ExWit.Com".data ++ "/A?q=1".data⟩ =
      normalizeUrl ⟨httpPre ++ "exwit.com".data ++ "/A?q=1".data⟩) ∧
    (normalizeUrl ⟨"https://exwit.com/a".data ++ '#' :: "frag".data⟩ =
      normalizeUrl ⟨"https://exwit.com/a".data⟩) ∧
    (normalizeUrl ⟨httpsPre ++ "ExWit.Com".data ++ "/A/b;par?q=1".data⟩ =
      ⟨httpsPre ++ lowerStr "ExWit.Com".data ++ "/A/b;par?q=1".data⟩) ∧
    (normalizeUrl ⟨"exwit.com/a".data⟩ =
      normalizeUrl ⟨httpsPre ++ "exwit.com/a".data⟩) := by
  refine ⟨?_, ?_, ?_, ?_⟩
  · exact C8_normalizer.1 httpPre "ExWit.Com".data "exwit.com".data "/A?q=1".data
      (Or.inl rfl) (by decide) (by decide) (by decide)
  · exact C8_normalizer.2.1 "https://exwit.com/a".data "frag".data (by decide)
  · exact C8_normalizer.2.2.1 httpsPre "https".data "ExWit.Com".data "/A/b;par?q=1".data
      (Or.inr ⟨rfl, rfl⟩) (by decide) (by decide) (by decide)
  · exact C8_normalizer.2.2.2 "exwit.com/a".data (by decide) (by decide)

end Wt
